import Mathlib

/-!
Verification of the Maplestory-Patch-Logs patch-scraper scripts.

The definitions below are a shallow embedding of the Python sources
`json-to-md.py`, `patch-scraper.py`, `patch-scraper-below-v165.py` and
`patch-scraper-wayback.py`.  Strings are modelled as Lean `String`
(computations happen on the underlying `List Char`); Python dicts that
preserve insertion order are modelled as association lists; functions
that raise exceptions return `Except`/`Option`.
-/

namespace PatchLogs

/-! ### Character helpers (ASCII fragments of Python's `\s`, `\d`, `\w`) -/

/-- Whitespace class of Python's `\s` (ASCII range). -/
def isPySpace (c : Char) : Bool :=
  c = ' ' || c = '\t' || c = '\n' || c = '\r' || c = '\x0b' || c = '\x0c'

/-- Digit class of Python's `\d` (ASCII range). -/
def isDig (c : Char) : Bool := c.isDigit

/-- Word-character class of Python's `\w` (ASCII range). -/
def isWordChar (c : Char) : Bool := c.isAlpha || c.isDigit || c = '_'

/-- `l` starts with the pattern `p` (character-by-character). -/
def startsWithL : List Char → List Char → Bool
  | _, [] => true
  | [], _ :: _ => false
  | c :: cs, p :: ps => c = p && startsWithL cs ps

/-- Python `str.strip()` on a character list (ASCII whitespace). -/
def stripL (l : List Char) : List Char :=
  ((l.dropWhile isPySpace).reverse.dropWhile isPySpace).reverse

/-- Python `str.strip()`. -/
def stripStr (s : String) : String := ⟨stripL s.data⟩

/-- Python `str.lower()` (ASCII). -/
def lowerStr (s : String) : String := ⟨s.data.map Char.toLower⟩

/-- Numeric value of a digit string. -/
def natOfDigits (l : List Char) : Nat :=
  l.foldl (fun acc c => acc * 10 + (c.toNat - 48)) 0

/-! ### `json-to-md.py`, `extract_version_num` (lines 10–12):
first maximal digit run of the version string, as an integer, else 0. -/

/-- First maximal run of digits in a character list (`re.search(r"\d+", ·)`). -/
def firstDigitRun : List Char → Option (List Char)
  | [] => none
  | c :: cs => if isDig c then some (c :: cs.takeWhile isDig) else firstDigitRun cs

/-- `extract_version_num` from `json-to-md.py`. -/
def extract_version_num (version : String) : Nat :=
  match firstDigitRun version.data with
  | some ds => natOfDigits ds
  | none => 0

/-! ### Ordered-dict helpers (Python `dict` keeps first-insertion order;
assignment to an existing key replaces the value in place). -/

/-- `d[k] = v` on an insertion-ordered dict. -/
def setKey (k : String) (v : List String) :
    List (String × List String) → List (String × List String)
  | [] => [(k, v)]
  | (k', v') :: rest =>
    if k' = k then (k, v) :: rest else (k', v') :: setKey k v rest

/-- `d[k].append(x)` on an insertion-ordered dict (no-op when `k` is absent,
which the sources never trigger). -/
def appendKey (k : String) (x : String) :
    List (String × List String) → List (String × List String)
  | [] => []
  | (k', v') :: rest =>
    if k' = k then (k', v' ++ [x]) :: rest else (k', v') :: appendKey k x rest

/-! ### The PatchRecord of `json-to-md.py` (`load_patches`, lines 29–48). -/

structure Patch where
  version : String
  date : Option String
  url : Option String
  title : Option String
  sections : List (String × List String)
deriving DecidableEq, Repr

/-! ### `format_patch_summary` (`json-to-md.py` lines 14–27). -/

/-- Python's `"\n".join`. -/
def joinNl : List String → String
  | [] => ""
  | [a] => a
  | a :: b :: rest => a ++ "\n" ++ joinNl (b :: rest)

/-- The `f" ({date})" if date else ""` part (Python truthiness: `None`
and `""` are both falsy). -/
def datePart (date : Option String) : String :=
  match date with
  | some d => if d = "" then "" else " (" ++ d ++ ")"
  | none => ""

/-- The `f" - {title}" if title else ""` part. -/
def titlePart (title : Option String) : String :=
  match title with
  | some t => if t = "" then "" else " - " ++ t
  | none => ""

/-- The optional `URL:` line of the block. -/
def urlLines (url : Option String) : List String :=
  match url with
  | some u => if u = "" then [] else ["\n  URL: " ++ u ++ "\n"]
  | none => []

/-- One `     - {section}: {item}` line per item, skipping `__`-prefixed keys. -/
def itemLines (sections : List (String × List String)) : List String :=
  sections.flatMap fun (sec, items) =>
    if startsWithL sec.data ['_', '_'] then []
    else items.map fun item => "     - " ++ sec ++ ": " ++ item

/-- `format_patch_summary` from `json-to-md.py`. -/
def format_patch_summary (version : String) (date url title : Option String)
    (sections : List (String × List String)) : String :=
  let summary := version ++ datePart date ++ titlePart title
  let hd := "<details>\n  <summary>\n            " ++ summary ++ "\n  </summary>"
  joinNl ([hd] ++ urlLines url ++ itemLines sections ++ ["</details>\n"])

/-- Rendering of one loaded patch record. -/
def renderPatch (p : Patch) : String :=
  format_patch_summary p.version p.date p.url p.title p.sections

/-! ### `extract_versions_from_readme` (`json-to-md.py` lines 50–56):
`re.findall(r"<summary>\s*([vV]?\d+)", text)`. -/

/-- The literal `<summary>` of the version-scanning regex. -/
def sumLit : List Char := ['<', 's', 'u', 'm', 'm', 'a', 'r', 'y', '>']

/-- Greedy `\d+` with its remainder. -/
def grabDigits (l : List Char) : Option (List Char × List Char) :=
  let d := l.takeWhile isDig
  if d.isEmpty then none else some (d, l.dropWhile isDig)

/-- Greedy `[vV]?\d+` with its remainder (the optional `v` is kept only
when at least one digit follows, exactly as regex backtracking does). -/
def grabTok (l : List Char) : Option (List Char × List Char) :=
  match l with
  | [] => none
  | c :: t =>
    if c = 'v' ∨ c = 'V' then (grabDigits t).map fun p => (c :: p.1, p.2)
    else grabDigits (c :: t)

/-- One attempt of the pattern `<summary>\s*([vV]?\d+)` at the head of `s`;
returns the captured group and the text after the whole match. -/
def matchSummary (s : List Char) : Option (List Char × List Char) :=
  if s.take 9 = sumLit then grabTok ((s.drop 9).dropWhile isPySpace)
  else none

/-- The captured group of the scanner is an optional `v`/`V` followed by
one or more digits (nothing else). -/
def canonTok (v : List Char) : Bool :=
  match v with
  | [] => false
  | c :: t =>
    if c = 'v' ∨ c = 'V' then !t.isEmpty && t.all isDig
    else isDig c && t.all isDig

/-- The head of `l` (if any) is not a digit. -/
def headNotDig : List Char → Bool
  | [] => true
  | c :: _ => !isDig c

/-- Fuel-driven scanning loop (structural recursion so that concrete
inputs evaluate); the fuel is always at least the text length plus one. -/
def scanFuel : Nat → List Char → List (List Char)
  | 0, _ => []
  | n + 1, s =>
    match matchSummary s with
    | some (tok, rest) => tok :: scanFuel n rest
    | none =>
      match s with
      | [] => []
      | _ :: cs => scanFuel n cs

/-- `re.findall(r"<summary>\s*([vV]?\d+)", ·)`: leftmost, non-overlapping. -/
def scanAux (s : List Char) : List (List Char) := scanFuel (s.length + 1) s

/-- `extract_versions_from_readme` from `json-to-md.py` (the file-reading
shell around it is I/O; the regex pass over the text is modelled). -/
def extract_versions (text : String) : List String :=
  (scanAux text.data).map fun l => ⟨l⟩

/-- The tail of the `<summary>` literal. -/
def tailLit : List Char := ['s', 'u', 'm', 'm', 'a', 'r', 'y', '>']

/-- `v` occurs in `s` as a scannable summary token: somewhere in `s` the
literal `<summary>` is followed by whitespace, then the canonical token
`v`, then a non-digit (or the end). -/
def SummaryOcc (v s : List Char) : Prop :=
  ∃ pre ws post, s = pre ++ (sumLit ++ (ws ++ (v ++ post))) ∧
    ws.all isPySpace = true ∧ canonTok v = true ∧ headNotDig post = true

/-- The indentation of a rendered block before `<summary>`. -/
def headPre : List Char := "<details>\n  ".data

/-- The whitespace between `<summary>` and the version token. -/
def nl12 : List Char := "\n            ".data

/-- The text of a rendered block after its version token. -/
def renderTailStr (p : Patch) : String :=
  datePart p.date ++ (titlePart p.title ++ ("\n  </summary>" ++ ("\n" ++
    joinNl (urlLines p.url ++ itemLines p.sections ++ ["</details>\n"]))))

/-! ### The merge of `json-to-md.py` `main` (lines 58–82). -/

/-- Descending stable insertion: `x` goes before the first element whose
key is `≤` its own (equal keys keep the earlier element first). -/
def insertDesc (x : Patch) : List Patch → List Patch
  | [] => [x]
  | y :: ys =>
    if extract_version_num y.version ≤ extract_version_num x.version then
      x :: y :: ys
    else y :: insertDesc x ys

/-- `new_patches.sort(key=lambda p: extract_version_num(p["version"]),
reverse=True)` — Python's stable sort, descending. -/
def sortPatchesDesc : List Patch → List Patch
  | [] => []
  | x :: xs => insertDesc x (sortPatchesDesc xs)

/-- The records kept by merge step 2 (`not in existing_versions`). -/
def filterNew (patches : List Patch) (old : String) : List Patch :=
  patches.filter fun p => !(extract_versions old).contains p.version

/-- `main` of `json-to-md.py`, as a function from the loaded records and
the current README text to the updated README text. -/
def merge (patches : List Patch) (old : String) : String :=
  let newPatches := filterNew patches old
  if newPatches.isEmpty then old
  else joinNl ((sortPatchesDesc newPatches).map renderPatch) ++ "\n" ++ "\n\n" ++ old

/-! ### Sample records and aggregates used in concrete checks. -/

/-- A record whose version is the scraper's wall-clock fallback. -/
def unkPatch : Patch :=
  { version := "unknown_0", date := none, url := none, title := none,
    sections := [("Misc", ["x"])] }

/-- A canonical record for version `v205`. -/
def pv205 : Patch :=
  { version := "v205", date := some "Aug 30, 2022", url := none,
    title := none, sections := [("Combat", ["New Skill A"])] }

def pv100 : Patch :=
  { version := "v100", date := none, url := none, title := none,
    sections := [("A", ["x"])] }

def pv99 : Patch :=
  { version := "v99", date := none, url := none, title := none,
    sections := [("C", ["z"])] }

/-- An aggregate already containing a rendered `v205` block. -/
def oldDocV205 : String :=
  "<details>\n  <summary>\n            v205 (Aug 30, 2022)\n  </summary>\n</details>\n"

/-! ### The version-token regexes of the three scraper variants.

`patch-scraper-below-v165.py` line 64: `\bv[.\-\s]?(\d{2,3})\b` (re.I);
`patch-scraper-wayback.py` line 28:   `\bv[.\-\s]?(\d{3})\b` (re.I);
`patch-scraper.py` lines 124–125:     `\bv[.\-]?\d{2,3}\b` on the title and
`\bv[\-]?\d{2,3}\b` on the URL (re.I). -/

/-- A version pattern: the allowed separator class after `v` and the
digit-count alternatives in the order the greedy regex tries them. -/
structure VPat where
  seps : List Char
  counts : List Nat

/-- `\b` just before a word character. -/
def boundaryBefore (prev : Option Char) : Bool :=
  match prev with
  | none => true
  | some c => !isWordChar c

/-- `\b` just after a word character: next char absent or non-word. -/
def boundaryAfterOk (l : List Char) : Bool :=
  match l with
  | [] => true
  | c :: _ => !isWordChar c

/-- Exactly `k` digits here, followed by a word boundary. -/
def digitsAt (l : List Char) (k : Nat) : Option (List Char) :=
  if (l.take k).length = k && (l.take k).all isDig && boundaryAfterOk (l.drop k) then
    some (l.take k)
  else none

/-- Try the digit-count alternatives in order (greedy `{m,n}`). -/
def tryCounts (ks : List Nat) (l : List Char) : Option (List Char) :=
  match ks with
  | [] => none
  | k :: rest =>
    match digitsAt l k with
    | some d => some d
    | none => tryCounts rest l

/-- The greedy branch taking the optional separator character. -/
def sepBranch (pat : VPat) (c : Char) : List Char → Option (List Char × List Char)
  | d :: rest2 =>
    if pat.seps.contains d then
      (tryCounts pat.counts rest2).map fun ds => (c :: d :: ds, ds)
    else none
  | [] => none

/-- The backtracking branch taking no separator character. -/
def noSepBranch (pat : VPat) (c : Char) (rest : List Char) :
    Option (List Char × List Char) :=
  (tryCounts pat.counts rest).map fun ds => (c :: ds, ds)

/-- One attempt of `\bv[sep]?\d{…}\b` (case-insensitive) at this position;
returns (whole match, digit group). -/
def matchVAt (pat : VPat) (prev : Option Char) : List Char →
    Option (List Char × List Char)
  | [] => none
  | c :: rest =>
    if (c == 'v' || c == 'V') && boundaryBefore prev then
      (sepBranch pat c rest).orElse fun _ => noSepBranch pat c rest
    else none

/-- `re.search` of the version pattern: leftmost match wins. -/
def searchV (pat : VPat) : Option Char → List Char → Option (List Char × List Char)
  | _, [] => none
  | prev, c :: cs =>
    match matchVAt pat prev (c :: cs) with
    | some r => some r
    | none => searchV pat (some c) cs

/-- `VERSION_RE` of `patch-scraper-below-v165.py`: 2–3 digits, separator
`.`/`-`/whitespace. -/
def patBelow : VPat := ⟨['.', '-', ' ', '\t', '\n', '\r', '\x0b', '\x0c'], [3, 2]⟩

/-- The pattern of `version_from` in `patch-scraper-wayback.py`: exactly 3
digits. -/
def patWayback : VPat := ⟨['.', '-', ' ', '\t', '\n', '\r', '\x0b', '\x0c'], [3]⟩

/-- The title pattern of `extract_patch_version` in `patch-scraper.py`:
2–3 digits, separator `.`/`-` only. -/
def patMainTitle : VPat := ⟨['.', '-'], [3, 2]⟩

/-- The URL pattern of `extract_patch_version` in `patch-scraper.py`:
2–3 digits, separator `-` only. -/
def patMainUrl : VPat := ⟨['-'], [3, 2]⟩

/-! ### Title-cleaning rules (`extract_title`,
`patch-scraper-below-v165.py` lines 84–95). -/

def toLowerL (l : List Char) : List Char := l.map Char.toLower

def endsWith (l suffix : List Char) : Bool := startsWithL l.reverse suffix.reverse

def dropTailWs (l : List Char) : List Char := (l.reverse.dropWhile isPySpace).reverse

/-- `re.sub(r"^\s*\[.*?\]\s*", "", ·)`: strip one leading bracketed
annotation (the lazy `.*?` stops at the first `]`; `.` never crosses a
newline). -/
def stripBracket (l : List Char) : List Char :=
  let w := l.dropWhile isPySpace
  match w with
  | '[' :: rest =>
    let inside := rest.takeWhile fun c => !(c == ']')
    if inside.contains '\n' then l
    else
      match rest.dropWhile (fun c => !(c == ']')) with
      | ']' :: tail => tail.dropWhile isPySpace
      | _ => l
  | _ => l

/-- `re.sub(r"^\s*[Vv][.\s]?\d{1,3}\s*[–-]\s*", "", ·)`: strip one leading
version-dash prefix.  Regex backtracking makes the match deterministic:
the digit run must have length 1–3 and be followed (after whitespace) by
an en dash or hyphen. -/
def stripVersionDash (l : List Char) : List Char :=
  let w := l.dropWhile isPySpace
  match w with
  | c :: rest =>
    if c == 'v' || c == 'V' then
      let rest2 :=
        match rest with
        | d :: r2 => if d == '.' || isPySpace d then r2 else rest
        | [] => rest
      let digs := rest2.takeWhile isDig
      if digs.length = 0 || 3 < digs.length then l
      else
        match (rest2.dropWhile isDig).dropWhile isPySpace with
        | d :: r4 => if d == '–' || d == '-' then r4.dropWhile isPySpace else l
        | [] => l
    else l
  | [] => l

/-- Match `s1 \s* s2 \s* $` case-insensitively at the end of `l`; on
success return the text before it with the preceding `\s*` removed. -/
def stripSuffixPair (l s2 s1 : List Char) : Option (List Char) :=
  let r0 := dropTailWs l
  if endsWith (toLowerL r0) s2 then
    let r1 := dropTailWs (r0.take (r0.length - s2.length))
    if endsWith (toLowerL r1) s1 then
      some (dropTailWs (r1.take (r1.length - s1.length)))
    else none
  else none

/-- `re.sub(r"\s*(Patch\s*Notes|Update\s*Highlights)\s*$", "", ·, re.I)`. -/
def stripBoilerplate (l : List Char) : List Char :=
  match stripSuffixPair l "notes".data "patch".data with
  | some r => r
  | none =>
    match stripSuffixPair l "highlights".data "update".data with
    | some r => r
    | none => l

/-- Python `.strip(" –-")`. -/
def stripDashWs (l : List Char) : List Char :=
  let p := fun c => c == ' ' || c == '–' || c == '-'
  ((l.dropWhile p).reverse.dropWhile p).reverse

/-- The step-by-step cleaning of `extract_title`
(`patch-scraper-below-v165.py` lines 91–95) applied to the raw heading
text. -/
def clean_title (raw : String) : String :=
  ⟨stripDashWs (stripBoilerplate (stripVersionDash (stripBracket raw.data)))⟩

/-! ### Wayback title/date helpers (`patch-scraper-wayback.py`). -/

/-- `re.sub(r"^v[.\-\s]?\d+\s*-\s*", "", ·, re.I)` of `title_from`:
unbounded digit run, ASCII hyphen only, no leading whitespace allowed. -/
def cleanWaybackTitle (l : List Char) : List Char :=
  match l with
  | c :: rest =>
    if c == 'v' || c == 'V' then
      let rest2 :=
        match rest with
        | d :: r2 => if d == '.' || d == '-' || isPySpace d then r2 else rest
        | [] => rest
      let digs := rest2.takeWhile isDig
      if digs.isEmpty then l
      else
        match (rest2.dropWhile isDig).dropWhile isPySpace with
        | d :: r4 => if d == '-' then r4.dropWhile isPySpace else l
        | [] => l
    else l
  | [] => l

/-- `re.sub(r"\s*Update Notes$", "", ·, re.I)` of `title_from` (a single
literal space between the two words). -/
def stripUpdateNotes (l : List Char) : List Char :=
  if endsWith (toLowerL l) "update notes".data then
    dropTailWs (l.take (l.length - 12))
  else l

/-- `strftime("%b", ·)` month abbreviations. -/
def monthAbbr (m : Nat) : String :=
  match m with
  | 1 => "Jan" | 2 => "Feb" | 3 => "Mar" | 4 => "Apr" | 5 => "May" | 6 => "Jun"
  | 7 => "Jul" | 8 => "Aug" | 9 => "Sep" | 10 => "Oct" | 11 => "Nov" | 12 => "Dec"
  | _ => ""

def isLeap (y : Nat) : Bool := (y % 4 == 0 && !(y % 100 == 0)) || y % 400 == 0

def daysInMonth (y m : Nat) : Nat :=
  if m == 2 then (if isLeap y then 29 else 28)
  else if m == 4 || m == 6 || m == 9 || m == 11 then 30
  else 31

/-- `datetime.strptime` range checking for `%m`/`%d`/`%Y`. -/
def validDate (y m d : Nat) : Bool :=
  1 ≤ y && 1 ≤ m && m ≤ 12 && 1 ≤ d && d ≤ daysInMonth y m

def pad2 (n : Nat) : String := if n < 10 then "0" ++ toString n else toString n

/-- `strftime("%b %d, %Y", ·)`. -/
def fmtDate (y m d : Nat) : String :=
  monthAbbr m ++ " " ++ pad2 d ++ ", " ++ toString y

/-- `\d{k}` followed by a literal `/`. -/
def digitsThenSlash (l : List Char) (k : Nat) : Option (List Char × List Char) :=
  let d := l.take k
  if d.length = k && d.all isDig then
    match l.drop k with
    | '/' :: r => some (d, r)
    | _ => none
  else none

/-- One attempt of `(\d{1,2}/\d{1,2}/\d{4})` at this position. -/
def matchDateAt (l : List Char) : Option (Nat × Nat × Nat) :=
  match (digitsThenSlash l 2).orElse (fun _ => digitsThenSlash l 1) with
  | none => none
  | some (m1, r1) =>
    match (digitsThenSlash r1 2).orElse (fun _ => digitsThenSlash r1 1) with
    | none => none
    | some (d1, r2) =>
      let y := r2.take 4
      if y.length = 4 && y.all isDig then
        some (natOfDigits m1, natOfDigits d1, natOfDigits y)
      else none

/-- `re.search(r"(\d{1,2}/\d{1,2}/\d{4})", ·)`. -/
def searchDate : List Char → Option (Nat × Nat × Nat)
  | [] => none
  | c :: cs =>
    match matchDateAt (c :: cs) with
    | some r => some r
    | none => searchDate cs

/-- One attempt of `/web/(\d{14})/` at this position. -/
def matchWebTsAt (l : List Char) : Option (List Char) :=
  if startsWithL l "/web/".data then
    let r := l.drop 5
    let d := r.take 14
    if d.length = 14 && d.all isDig then
      match r.drop 14 with
      | '/' :: _ => some d
      | _ => none
    else none
  else none

/-- `re.search(r"/web/(\d{14})/", ·)`. -/
def searchWebTs : List Char → Option (List Char)
  | [] => none
  | c :: cs =>
    match matchWebTsAt (c :: cs) with
    | some d => some d
    | none => searchWebTs cs

/-- `strptime("%Y%m%d%H%M%S")` range checking. -/
def validTs (y mo d h mi s : Nat) : Bool :=
  validDate y mo d && h ≤ 23 && mi ≤ 59 && s ≤ 61

/-- The Wayback-timestamp fallback of `date_from` (lines 52–54): parse the
14-digit snapshot stamp from the URL, else the literal `"Unknown"`;
`.error` models a `ValueError` escaping `strptime`. -/
def waybackFallback (url : String) : Except Unit String :=
  match searchWebTs url.data with
  | none => Except.ok "Unknown"
  | some ds =>
    let y := natOfDigits (ds.take 4)
    let mo := natOfDigits ((ds.drop 4).take 2)
    let d := natOfDigits ((ds.drop 6).take 2)
    let h := natOfDigits ((ds.drop 8).take 2)
    let mi := natOfDigits ((ds.drop 10).take 2)
    let s := natOfDigits ((ds.drop 12).take 2)
    if validTs y mo d h mi s then Except.ok (fmtDate y mo d) else Except.error ()

/-! ### The document-tree facade (the queries the scrapers make through
BeautifulSoup).  `line` models `Tag.sourceline` (0 for `None`). -/

inductive Node where
  | elem (name : String) (line : Nat) (attrs : List (String × String))
      (children : List Node)
  | text (s : String)

def isElem (n : Node) : Bool :=
  match n with
  | .elem _ _ _ _ => true
  | .text _ => false

def tagName (n : Node) : Option String :=
  match n with
  | .elem nm _ _ _ => some nm
  | .text _ => none

def isTag (nm : String) (n : Node) : Bool := tagName n == some nm

def nodeLine (n : Node) : Nat :=
  match n with
  | .elem _ ln _ _ => ln
  | .text _ => 0

def getAttr (n : Node) (k : String) : Option String :=
  match n with
  | .elem _ _ attrs _ => (attrs.find? fun a => a.1 == k).map (·.2)
  | .text _ => none

/-- Split on whitespace runs (the `class` attribute's value list). -/
def splitWsAux : List Char → List Char → List String
  | [], acc => if acc.isEmpty then [] else [⟨acc.reverse⟩]
  | c :: cs, acc =>
    if isPySpace c then
      if acc.isEmpty then splitWsAux cs [] else ⟨acc.reverse⟩ :: splitWsAux cs []
    else splitWsAux cs (c :: acc)

def splitWs (l : List Char) : List String := splitWsAux l []

/-- `class_="c"` matching: `c` is one of the element's classes. -/
def hasClass (n : Node) (c : String) : Bool :=
  match getAttr n "class" with
  | some v => (splitWs v.data).contains c
  | none => false

/-- `id="i"` matching. -/
def hasId (n : Node) (i : String) : Bool := getAttr n "id" == some i

mutual

/-- All text fragments below a node, in document order (`.strings`). -/
def texts : Node → List String
  | .text s => [s]
  | .elem _ _ _ cs => textsL cs

def textsL : List Node → List String
  | [] => []
  | c :: cs => texts c ++ textsL cs

end

/-- `get_text()`. -/
def getText (n : Node) : String := String.join (texts n)

/-- `get_text(strip=True)`: each fragment stripped, empties dropped. -/
def getTextStrip (n : Node) : String :=
  String.join (((texts n).map stripStr).filter fun s => !(s == ""))

mutual

/-- Proper descendants in pre-order (the iteration order of `find_all`). -/
def desc : Node → List Node
  | .text _ => []
  | .elem _ _ _ cs => descL cs

def descL : List Node → List Node
  | [] => []
  | c :: cs => c :: (desc c ++ descL cs)

end

/-- `find_all(name)` from a node. -/
def findAll (n : Node) (nm : String) : List Node := (desc n).filter (isTag nm)

/-- `.string`: the single string below the tag (following single-child
chains), or nothing. -/
def nodeString : Node → Option String
  | .text s => some s
  | .elem _ _ _ [c] => nodeString c
  | .elem _ _ _ _ => none

/-- A located node: the node, its ancestors (nearest first, each with its
own following siblings), and the node's following siblings. -/
structure Loc where
  node : Node
  ancs : List (Node × List Node)
  after : List Node

mutual

def locsOf : Node → List (Node × List Node) → List Node → List Loc
  | .text s, ancs, after => [⟨.text s, ancs, after⟩]
  | .elem nm ln attrs cs, ancs, after =>
    ⟨.elem nm ln attrs cs, ancs, after⟩ ::
      locsL cs ((.elem nm ln attrs cs, after) :: ancs)

def locsL : List Node → List (Node × List Node) → List Loc
  | [], _ => []
  | c :: cs, ancs => locsOf c ancs cs ++ locsL cs ancs

end

/-- Locations of all proper descendants of the document root. -/
def docLocs (root : Node) : List Loc :=
  match root with
  | .elem nm ln attrs cs => locsL cs [(.elem nm ln attrs cs, [])]
  | .text _ => []

/-! ### `parse_legacy_sections` (`patch-scraper-below-v165.py` lines 37–61). -/

/-- The stoplist `EXCLUDE` (lines 33–35). -/
def EXCLUDE : List String :=
  ["overview", "gameplay", "rewards", "requirement", "beginner", "1st job",
   "2nd job", "3rd job", "4th job", "hyper skills"]

/-- Walk an `h1`'s following siblings, collecting `h3` items until the
next `h1` (lines 47–58). -/
def collectH3Items : List Node → List String
  | [] => []
  | sib :: rest =>
    if isTag "h1" sib then []
    else if isTag "h3" sib then
      match (desc sib).find? (isTag "strong") with
      | none => collectH3Items rest
      | some st =>
        let item := getTextStrip st
        if item == "" || EXCLUDE.contains (lowerStr item) then collectH3Items rest
        else item :: collectH3Items rest
    else collectH3Items rest

/-- The decision for one `h1`: its `strong` header (skipping banner
headers) and the collected non-empty item list, or nothing (lines 40–59). -/
def legacySection (loc : Loc) : Option (String × List String) :=
  match (desc loc.node).find? (isTag "strong") with
  | none => none
  | some st =>
    let header := getTextStrip st
    if startsWithL (lowerStr header).data "check out".data then none
    else
      let items := collectH3Items loc.after
      if items.isEmpty then none else some (header, items)

def parse_legacy_sections_go :
    List Loc → List (String × List String) → List (String × List String)
  | [], acc => acc
  | loc :: ls, acc =>
    match legacySection loc with
    | none => parse_legacy_sections_go ls acc
    | some (header, items) => parse_legacy_sections_go ls (setKey header items acc)

/-- `parse_legacy_sections` from `patch-scraper-below-v165.py`. -/
def parse_legacy_sections (soup : Node) : List (String × List String) :=
  parse_legacy_sections_go ((docLocs soup).filter fun l => isTag "h1" l.node) []

/-! ### Metadata extraction of `patch-scraper-below-v165.py`
(`extract_version` lines 66–70, `extract_date` 72–74, `extract_title`
84–95).  `now` stands for `int(time.time())`. -/

def extract_version (soup : Node) (url : String) (now : Nat) : String :=
  match searchV patBelow none url.data with
  | some (_, ds) => "v" ++ (⟨ds⟩ : String)
  | none =>
    match (desc soup).find? (isTag "title") with
    | some t =>
      match searchV patBelow none (getText t).data with
      | some (_, ds) => "v" ++ (⟨ds⟩ : String)
      | none => "unknown_" ++ toString now
    | none => "unknown_" ++ toString now

def extract_date (soup : Node) : String :=
  match (desc soup).find? (fun n => isTag "div" n && hasClass n "news-detail__live-date") with
  | some d => getTextStrip d
  | none => ""

def extract_title (soup : Node) : String :=
  match (desc soup).find? (fun n => isTag "h1" n && hasClass n "news-detail__title") with
  | some h1 => clean_title (getTextStrip h1)
  | none =>
    match (desc soup).find? (isTag "h1") with
    | some h1 => clean_title (getTextStrip h1)
    | none => ""

/-! ### Metadata extraction of `patch-scraper-wayback.py`
(`version_from` 27–30, `title_from` 32–41, `date_from` 43–54). -/

def version_from (url : String) (soup : Node) (now : Nat) : String :=
  match searchV patWayback none url.data with
  | some (_, ds) => "v" ++ (⟨ds⟩ : String)
  | none =>
    match (desc soup).find? (isTag "title") with
    | some t =>
      match searchV patWayback none (getText t).data with
      | some (_, ds) => "v" ++ (⟨ds⟩ : String)
      | none => "unknown_" ++ toString now
    | none => "unknown_" ++ toString now

def title_from (soup : Node) : String :=
  match (desc soup).find? (fun n => isTag "div" n && hasId n "m-news-detail-header") with
  | some hdr =>
    match (desc hdr).find? (isTag "h4") with
    | some h4 =>
      stripStr ⟨stripUpdateNotes (cleanWaybackTitle (getTextStrip h4).data)⟩
    | none => "Untitled"
  | none => "Untitled"

def date_from (soup : Node) (url : String) : Except Unit String :=
  match (desc soup).find? (fun n => isTag "div" n && hasId n "m-news-detail-header") with
  | some hdr =>
    match (desc hdr).find? (fun n => isTag "div" n && hasClass n "info") with
    | some info =>
      match searchDate (getText info).data with
      | some (m, d, y) =>
        if validDate y m d then Except.ok (fmtDate y m d) else Except.error ()
      | none => waybackFallback url
    | none => waybackFallback url
  | none => waybackFallback url

/-! ### The wayback TOC parser chain (`parse_wayback_toc` lines 57–107,
`parse_headings_as_toc` lines 109–122, `scrape` lines 126–134). -/

/-- All `<li>` texts below a `<ul>` (`find_all("li")`, stripped, kept even
when empty). -/
def liTexts (ul : Node) : List String :=
  ((desc ul).filter (isTag "li")).map getTextStrip

/-- The `next_ul` scan of option 2: the next element sibling named `ul`,
aborting at any `h…`-named sibling. -/
def findNextUl : List Node → Option Node
  | [] => none
  | x :: xs =>
    if isTag "ul" x then some x
    else
      match tagName x with
      | some nm => if startsWithL nm.data ['h'] then none else findNextUl xs
      | none => findNextUl xs

/-- The decision for one `<p>` sibling: its `<b>` section name with the
inline `<ul>`'s items (option 1) or the next sibling `<ul>`'s items
(option 2), kept only when non-empty; an empty inline list does not fall
through to option 2 (the loop `continue`s). -/
def waybackSection (el : Node) (rest : List Node) : Option (String × List String) :=
  if isTag "p" el then
    match (desc el).find? (isTag "b") with
    | none => none
    | some b =>
      let sec := getTextStrip b
      match (desc el).find? (isTag "ul") with
      | some inlineUl =>
        let items := liTexts inlineUl
        if items.isEmpty then none else some (sec, items)
      | none =>
        match findNextUl rest with
        | some ul =>
          let items := liTexts ul
          if items.isEmpty then none else some (sec, items)
        | none => none
  else none

/-- The sibling walk of `parse_wayback_toc` over the element siblings
after the Table-of-Contents heading. -/
def waybackWalk : List Node → List (String × List String) → List (String × List String)
  | [], acc => acc
  | el :: rest, acc =>
    if isTag "h1" el then acc
    else if isTag "div" el && hasClass el "hr" then acc
    else
      match waybackSection el rest with
      | none => waybackWalk rest acc
      | some (sec, items) => waybackWalk rest (setKey sec items acc)

/-- Case-insensitive substring test (`re.search("Table of Contents", re.I)`;
the pattern has no metacharacters). -/
def containsSub : List Char → List Char → Bool
  | [], pat => startsWithL [] pat
  | c :: cs, pat => startsWithL (c :: cs) pat || containsSub cs pat

def containsCI (l pat : List Char) : Bool := containsSub (toLowerL l) pat

/-- `parse_wayback_toc` from `patch-scraper-wayback.py`. -/
def parse_wayback_toc (soup : Node) :
    Except String (List (String × List String)) :=
  match (docLocs soup).find? (fun loc => isTag "h1" loc.node &&
      (match nodeString loc.node with
       | some s => containsCI s.data "table of contents".data
       | none => false)) with
  | none => Except.error "Could not find Table of Contents heading."
  | some loc =>
    let result := waybackWalk (loc.after.filter isElem) []
    if result.isEmpty then Except.error "No TOC sections found."
    else Except.ok result

def parseHeadingsGo : List Node → List (String × List String) → List (String × List String)
  | [], acc => acc
  | h :: hs, acc =>
    let t := getTextStrip h
    if !(t == "") && t.length < 80 then parseHeadingsGo hs (setKey t [] acc)
    else parseHeadingsGo hs acc

/-- `parse_headings_as_toc` from `patch-scraper-wayback.py`: every `h1`
after the first becomes a section with an empty item list. -/
def parse_headings_as_toc (soup : Node) :
    Except String (List (String × List String)) :=
  let headers := findAll soup "h1"
  if headers.length < 2 then Except.error "Not enough headings to infer TOC."
  else Except.ok (parseHeadingsGo headers.tail [])

/-- The TOC selection of `scrape` in `patch-scraper-wayback.py` (lines
128–134): try the TOC parser, fall back to the headings parser, and fail
when the result is empty — this is the `sections` mapping persisted into
the record. -/
def wayback_toc (soup : Node) : Except String (List (String × List String)) :=
  match parse_wayback_toc soup with
  | Except.ok t => if t.isEmpty then Except.error "No TOC sections found" else Except.ok t
  | Except.error _ =>
    match parse_headings_as_toc soup with
    | Except.ok t => if t.isEmpty then Except.error "No TOC sections found" else Except.ok t
    | Except.error e => Except.error e

/-! ### `patch-scraper.py`: modern-nav extraction (lines 54–68), the
legacy-heading fallback (71–109), the chain (112–118) and
`extract_patch_version` (121–129). -/

/-- A `<ul>` qualifies when it contains an in-page anchor
(`find("a", href=lambda h: h and h.startswith("#"))`). -/
def qualifiesUl (ul : Node) : Bool :=
  (desc ul).any fun n => isTag "a" n &&
    (match getAttr n "href" with
     | some h => !(h == "") && startsWithL h.data ['#']
     | none => false)

/-- The `<strong>`/`<a>` elements below a `<ul>`, in document order
(`ul.find_all(["strong", "a"], recursive=True)`). -/
def strongAndAnchors (ul : Node) : List Node :=
  (desc ul).filter fun n => isTag "strong" n || isTag "a" n

/-- The accumulation loop of `extract_modern_nav`: a `strong` opens a new
section, an anchor joins the current section (or is discarded when none is
open yet). -/
def navFold : List Node → Option String → List (String × List String) →
    List (String × List String)
  | [], _, acc => acc
  | el :: es, cur, acc =>
    if isTag "strong" el then
      let c := getTextStrip el
      navFold es (some c) (setKey c [] acc)
    else
      match cur with
      | some c => navFold es cur (appendKey c (getTextStrip el) acc)
      | none => navFold es cur acc

def modernNavGo : List Node → List (String × List String)
  | [] => []
  | ul :: rest =>
    if qualifiesUl ul then
      let sections := navFold (strongAndAnchors ul) none []
      if sections.isEmpty then modernNavGo rest else sections
    else modernNavGo rest

/-- `extract_modern_nav` from `patch-scraper.py`. -/
def extract_modern_nav (soup : Node) : List (String × List String) :=
  modernNavGo (findAll soup "ul")

/-- A source heading of `extract_legacy_nav`: the heading node, its
`sourceline or 0`, and its parent's following siblings. -/
structure LegacyHeading where
  node : Node
  line : Nat
  parentAfter : List Node

def firstDirectStrong (n : Node) : Option Node :=
  match n with
  | .elem _ _ _ cs => cs.find? (isTag "strong")
  | .text _ => none

def hasDirectStrong (n : Node) : Bool := (firstDirectStrong n).isSome

/-- `h2`/`h3` heading candidates. -/
def legacyHeadingsH (soup : Node) : List LegacyHeading :=
  ((docLocs soup).filter fun loc => isTag "h2" loc.node || isTag "h3" loc.node).map
    fun loc =>
      { node := loc.node, line := nodeLine loc.node,
        parentAfter := match loc.ancs with | a :: _ => a.2 | [] => [] }

/-- `<strong>`-in-`<p>` heading candidates (`recursive=False`, skipping
strongs with a `ul` ancestor). -/
def legacyHeadingsP (soup : Node) : List LegacyHeading :=
  ((docLocs soup).filter fun loc => isTag "p" loc.node).filterMap fun loc =>
    match firstDirectStrong loc.node with
    | some st =>
      if loc.ancs.any (fun a => isTag "ul" a.1) then none
      else some { node := st, line := nodeLine st, parentAfter := loc.after }
    | none => none

/-- Stable ascending insertion by `sourceline` (`headings.sort`). -/
def insertAscLH (x : LegacyHeading) : List LegacyHeading → List LegacyHeading
  | [] => [x]
  | y :: ys => if x.line ≤ y.line then x :: y :: ys else y :: insertAscLH x ys

def sortLH : List LegacyHeading → List LegacyHeading
  | [] => []
  | x :: xs => insertAscLH x (sortLH xs)

/-- Item collection under one legacy heading: siblings of the heading's
parent until the next heading-like element. -/
def legacyCollect : List Node → List String
  | [] => []
  | sib :: rest =>
    if isElem sib && (isTag "h2" sib || isTag "h3" sib || hasDirectStrong sib) then []
    else if isTag "ul" sib then
      ((((desc sib).filter (isTag "li")).map getTextStrip).filter fun t => !(t == ""))
        ++ legacyCollect rest
    else if isTag "p" sib then
      let t := getTextStrip sib
      (if t == "" then [] else [t]) ++ legacyCollect rest
    else legacyCollect rest

def legacyNavGo : List LegacyHeading → List (String × List String) →
    List (String × List String)
  | [], acc => acc
  | h :: hs, acc =>
    let title := getTextStrip h.node
    if title == "" then legacyNavGo hs acc
    else
      let items := legacyCollect h.parentAfter
      legacyNavGo hs (items.foldl (fun a t => appendKey title t a) (setKey title [] acc))

/-- `extract_legacy_nav` from `patch-scraper.py`. -/
def extract_legacy_nav (soup : Node) : List (String × List String) :=
  legacyNavGo (sortLH (legacyHeadingsH soup ++ legacyHeadingsP soup)) []

/-- `extract_nav_section` from `patch-scraper.py`: modern nav first, the
legacy parser only when it produced nothing. -/
def extract_nav_section (soup : Node) : List (String × List String) :=
  let nav := extract_modern_nav soup
  if nav.isEmpty then extract_legacy_nav soup else nav

/-- The regex core of `extract_patch_version`: title pattern first, then
the URL pattern, then the wall-clock fallback; the whole match is
normalised by dropping `.`/`-` and lowercasing. -/
def epvCore (title url : String) (now : Nat) : String :=
  match (searchV patMainTitle none title.data).orElse
      (fun _ => searchV patMainUrl none url.data) with
  | some (whole, _) => ⟨toLowerL (whole.filter fun c => !(c == '.') && !(c == '-'))⟩
  | none => "unknown_" ++ toString now

/-- `extract_patch_version` from `patch-scraper.py`.  When the `<title>`
tag exists but `.string` is `None`, `re.search` receives `None` and raises
(`Except.error`). -/
def extract_patch_version (soup : Node) (url : String) (now : Nat) :
    Except Unit String :=
  match (desc soup).find? (isTag "title") with
  | some t =>
    match nodeString t with
    | some ts => Except.ok (epvCore ts url now)
    | none => Except.error ()
  | none => Except.ok (epvCore "" url now)

/-! ### Sample documents used in concrete checks. -/

/-- A document with no tags at all. -/
def emptyDoc : Node := Node.elem "[document]" 0 [] []

/-- A document whose `<title>` carries `v100`. -/
def soupTitleV100 : Node :=
  Node.elem "[document]" 0 []
    [Node.elem "title" 1 [] [Node.text "MapleStory v100 Patch"]]

/-- A document whose `h1.news-detail__title` carries the C7 heading. -/
def h1TitleDemo : Node :=
  Node.elem "[document]" 0 []
    [Node.elem "h1" 1 [("class", "news-detail__title")]
      [Node.text "[Updated] v205 – Grand Athenaeum Patch Notes"]]

/-- A wayback page with two plain `h1` headings and no Table of Contents:
the heading-fallback parser applies. -/
def soupHeadings : Node :=
  Node.elem "[document]" 0 []
    [Node.elem "h1" 1 [] [Node.text "Title"],
     Node.elem "h1" 2 [] [Node.text "Second Section"]]

/-- A legacy page with one `h1` section and one `h3` item. -/
def soupLegacyDemo : Node :=
  Node.elem "[document]" 0 []
    [Node.elem "h1" 1 [] [Node.elem "strong" 1 [] [Node.text "Sec"]],
     Node.elem "h3" 2 [] [Node.elem "strong" 2 [] [Node.text "Item"]]]

/-- A modern page whose only qualifying list has in-page anchors but no
`strong` header. -/
def soupAnchorsOnly : Node :=
  Node.elem "[document]" 0 []
    [Node.elem "ul" 1 []
      [Node.elem "li" 1 [] [Node.elem "a" 1 [("href", "#s1")] [Node.text "One"]]],
     Node.elem "p" 2 [] [Node.text "hello"]]

theorem length_dropWhile_le (p : Char → Bool) (l : List Char) :
    (l.dropWhile p).length ≤ l.length := by
  induction l with
  | nil => simp [List.dropWhile]
  | cons x xs ih =>
    by_cases h : p x
    · simp only [List.dropWhile, h]
      exact Nat.le_succ_of_le ih
    · simp [List.dropWhile, h]

theorem dropWhile_head_false (l : List Char) :
    headNotDig (l.dropWhile isDig) = true ∨ l.dropWhile isDig = [] := by
  induction l with
  | nil => right; rfl
  | cons x xs ih =>
    by_cases h : isDig x
    · simpa [List.dropWhile, h] using ih
    · left; simp [List.dropWhile, h, headNotDig]

theorem dropWhile_append_all {p : Char → Bool} {a : List Char} (b : List Char)
    (h : a.all p) : (a ++ b).dropWhile p = b.dropWhile p := by
  induction a with
  | nil => rfl
  | cons x xs ih =>
    simp only [List.all_cons, Bool.and_eq_true] at h
    simp [List.dropWhile, h.1, ih h.2]

theorem takeWhile_append_all {p : Char → Bool} {a : List Char} (b : List Char)
    (h : a.all p) : (a ++ b).takeWhile p = a ++ b.takeWhile p := by
  induction a with
  | nil => rfl
  | cons x xs ih =>
    simp only [List.all_cons, Bool.and_eq_true] at h
    simp [List.takeWhile, h.1, ih h.2]

theorem dropWhile_cons_false {p : Char → Bool} {c : Char} {l : List Char}
    (h : p c = false) : (c :: l).dropWhile p = c :: l := by
  simp [List.dropWhile, h]

theorem takeWhile_cons_false {p : Char → Bool} {c : Char} {l : List Char}
    (h : p c = false) : (c :: l).takeWhile p = [] := by
  simp [List.takeWhile, h]

theorem grabDigits_some {l d r : List Char} (h : grabDigits l = some (d, r)) :
    l = d ++ r ∧ d ≠ [] ∧ d.all isDig = true ∧ headNotDig r = true := by
  unfold grabDigits at h
  by_cases he : (l.takeWhile isDig).isEmpty
  · simp [he] at h
  · simp only [he, Bool.false_eq_true, if_false, Option.some.injEq, Prod.mk.injEq] at h
    obtain ⟨h1, h2⟩ := h
    subst h1; subst h2
    refine ⟨(List.takeWhile_append_dropWhile ..).symm, ?_, ?_, ?_⟩
    · simpa [List.isEmpty_iff] using he
    · exact List.all_eq_true.2 fun c hc => List.mem_takeWhile_imp hc
    · rcases dropWhile_head_false l with h | h
      · exact h
      · rw [h]; rfl

theorem grabDigits_of_canon {d r : List Char} (hd : d ≠ []) (hall : d.all isDig = true)
    (hr : headNotDig r = true) : grabDigits (d ++ r) = some (d, r) := by
  unfold grabDigits
  have ht : (d ++ r).takeWhile isDig = d := by
    rw [takeWhile_append_all r hall]
    cases r with
    | nil => simp
    | cons c cs =>
      simp only [headNotDig, Bool.not_eq_true'] at hr
      rw [takeWhile_cons_false hr, List.append_nil]
  have hdr : (d ++ r).dropWhile isDig = r := by
    rw [dropWhile_append_all r hall]
    cases r with
    | nil => rfl
    | cons c cs =>
      simp only [headNotDig, Bool.not_eq_true'] at hr
      exact dropWhile_cons_false hr
  rw [ht, hdr]
  simp [List.isEmpty_iff, hd]

theorem grabTok_some {l tok rest : List Char} (h : grabTok l = some (tok, rest)) :
    l = tok ++ rest ∧ canonTok tok = true ∧ headNotDig rest = true := by
  unfold grabTok at h
  cases l with
  | nil => simp at h
  | cons c t =>
    by_cases hv : c = 'v' ∨ c = 'V'
    · simp only [hv, if_true, Option.map_eq_some'] at h
      obtain ⟨⟨d, r⟩, hg, heq⟩ := h
      obtain ⟨h1, h2, h3, h4⟩ := grabDigits_some hg
      simp only [Prod.mk.injEq] at heq
      obtain ⟨heq1, heq2⟩ := heq
      subst heq1; subst heq2
      refine ⟨by simp [h1], ?_, h4⟩
      simp [canonTok, hv, List.isEmpty_iff, h2, h3]
    · simp only [hv, if_false] at h
      obtain ⟨h1, h2, h3, h4⟩ := grabDigits_some h
      refine ⟨h1, ?_, h4⟩
      cases tok with
      | nil => exact absurd rfl h2
      | cons x xs =>
        have hx : c = x := by
          have := congrArg (List.head? ·) h1
          simp at this
          exact this
        subst hx
        simp only [List.all_cons, Bool.and_eq_true] at h3
        simp [canonTok, hv, h3]

theorem isPySpace_false_of_isDig {c : Char} (h : isDig c = true) :
    isPySpace c = false := by
  by_contra hc
  simp only [Bool.not_eq_false, isPySpace, Bool.or_eq_true, decide_eq_true_eq] at hc
  have hor : c = ' ' ∨ c = '\t' ∨ c = '\n' ∨ c = '\r' ∨ c = '\x0b' ∨ c = '\x0c' := by
    tauto
  rcases hor with he | he | he | he | he | he <;> subst he <;> exact absurd h (by decide)

theorem grabTok_of_canon {v post : List Char} (hv : canonTok v = true)
    (hp : headNotDig post = true) : grabTok (v ++ post) = some (v, post) := by
  unfold grabTok
  cases v with
  | nil => simp [canonTok] at hv
  | cons c t =>
    by_cases hc : c = 'v' ∨ c = 'V'
    · simp only [canonTok, hc, if_true, Bool.and_eq_true, Bool.not_eq_true'] at hv
      simp only [List.cons_append, hc, if_true]
      have ht : t ≠ [] := by intro h0; rw [h0] at hv; simp at hv
      rw [grabDigits_of_canon ht hv.2 hp]
      rfl
    · simp only [canonTok, hc, if_false, Bool.and_eq_true] at hv
      simp only [List.cons_append, hc, if_false]
      have hall : (c :: t).all isDig = true := by simp [hv.1, hv.2]
      exact @grabDigits_of_canon (c :: t) post (by simp) hall hp

theorem take9_append (r : List Char) : (sumLit ++ r).take 9 = sumLit := rfl

theorem drop9_append (r : List Char) : (sumLit ++ r).drop 9 = r := rfl

/-- Structure of a successful scanner step: the input decomposes as
`<summary>` + whitespace + token + rest. -/
theorem matchSummary_some {s tok rest : List Char}
    (h : matchSummary s = some (tok, rest)) :
    ∃ ws, s = sumLit ++ ws ++ tok ++ rest ∧ ws.all isPySpace = true ∧
      canonTok tok = true ∧ headNotDig rest = true := by
  unfold matchSummary at h
  by_cases ht : s.take 9 = sumLit
  · simp only [ht, if_true] at h
    obtain ⟨h1, h2, h3⟩ := grabTok_some h
    refine ⟨(s.drop 9).takeWhile isPySpace, ?_, ?_, h2, h3⟩
    · have hsplit : s.drop 9 = (s.drop 9).takeWhile isPySpace ++ (tok ++ rest) := by
        conv_lhs => rw [← List.takeWhile_append_dropWhile isPySpace (s.drop 9)]
        rw [h1]
      calc s = s.take 9 ++ s.drop 9 := (List.take_append_drop 9 s).symm
        _ = sumLit ++ ((s.drop 9).takeWhile isPySpace ++ (tok ++ rest)) := by
              rw [ht, ← hsplit]
        _ = sumLit ++ (s.drop 9).takeWhile isPySpace ++ tok ++ rest := by
              simp [List.append_assoc]
    · exact List.all_eq_true.2 fun c hc => List.mem_takeWhile_imp hc
  · simp [ht] at h

/-- Evaluating the scanner step on a decomposed occurrence. -/
theorem matchSummary_of_occ {ws v post : List Char} (hws : ws.all isPySpace = true)
    (hv : canonTok v = true) (hp : headNotDig post = true) :
    matchSummary (sumLit ++ ws ++ v ++ post) = some (v, post) := by
  unfold matchSummary
  rw [List.append_assoc, List.append_assoc]
  rw [take9_append, drop9_append, if_pos rfl]
  rw [dropWhile_append_all (v ++ post) hws]
  have hdv : (v ++ post).dropWhile isPySpace = v ++ post := by
    cases v with
    | nil => simp [canonTok] at hv
    | cons c t =>
      show (c :: (t ++ post)).dropWhile isPySpace = c :: (t ++ post)
      apply dropWhile_cons_false
      unfold canonTok at hv
      by_cases hc : c = 'v' ∨ c = 'V'
      · rcases hc with hc | hc <;> subst hc <;> rfl
      · simp only [hc, if_false, Bool.and_eq_true] at hv
        exact isPySpace_false_of_isDig hv.1
  rw [hdv]
  exact grabTok_of_canon hv hp

theorem matchSummary_none_of_ne {c : Char} {cs : List Char} (h : c ≠ '<') :
    matchSummary (c :: cs) = none := by
  unfold matchSummary
  rw [if_neg]
  intro he
  have hta : (c :: cs).take 9 = c :: cs.take 8 := rfl
  rw [hta] at he
  simp only [sumLit] at he
  injection he with h1 _
  exact h h1

/-- Length bound used for termination of the scanner. -/
theorem matchSummary_some_length {s tok rest : List Char}
    (h : matchSummary s = some (tok, rest)) : rest.length < s.length := by
  obtain ⟨ws, heq, _, hc, _⟩ := matchSummary_some h
  have htok : tok ≠ [] := by
    intro h0; rw [h0] at hc; simp [canonTok] at hc
  have := congrArg List.length heq
  simp [sumLit] at this
  cases tok with
  | nil => exact absurd rfl htok
  | cons _ _ => simp at this; omega

theorem scanFuel_congr : ∀ (n m : Nat) (s : List Char), s.length < n →
    s.length < m → scanFuel n s = scanFuel m s := by
  intro n
  induction n with
  | zero => intro m s h1 _; omega
  | succ n ih =>
    intro m s h1 h2
    cases m with
    | zero => omega
    | succ m =>
      simp only [scanFuel]
      cases hm : matchSummary s with
      | some pr =>
        obtain ⟨tok, rest⟩ := pr
        have hr := matchSummary_some_length hm
        show tok :: scanFuel n rest = tok :: scanFuel m rest
        rw [ih m rest (by omega) (by omega)]
      | none =>
        cases s with
        | nil => rfl
        | cons c cs =>
          simp only [List.length_cons] at h1 h2
          show scanFuel n cs = scanFuel m cs
          exact ih m cs (by omega) (by omega)

/-! ### Occurrence characterisation of the scanner. -/

theorem scanAux_eq_some {s tok rest : List Char}
    (h : matchSummary s = some (tok, rest)) :
    scanAux s = tok :: scanAux rest := by
  have h1 : scanFuel (s.length + 1) s = tok :: scanFuel s.length rest := by
    simp only [scanFuel, h]
  unfold scanAux
  rw [h1, scanFuel_congr s.length (rest.length + 1) rest
    (matchSummary_some_length h) (Nat.lt_succ_self _)]

theorem scanAux_eq_none {c : Char} {cs : List Char}
    (h : matchSummary (c :: cs) = none) : scanAux (c :: cs) = scanAux cs := by
  show scanFuel (cs.length + 1 + 1) (c :: cs) = scanFuel (cs.length + 1) cs
  simp only [scanFuel, h]

theorem scanAux_nil : scanAux [] = [] := rfl

theorem drop_append_le {α : Type} {n : Nat} {a : List α} (b : List α)
    (h : n ≤ a.length) : (a ++ b).drop n = a.drop n ++ b := by
  induction a generalizing n with
  | nil => simp at h; simp [h]
  | cons x xs ih =>
    cases n with
    | zero => simp
    | succ m => simpa using ih (Nat.le_of_succ_le_succ h)

theorem canonTok_ne_lt {tok : List Char} (h : canonTok tok = true) :
    ∀ c ∈ tok, c ≠ '<' := by
  intro c hc
  cases tok with
  | nil => simp at hc
  | cons x xs =>
    unfold canonTok at h
    by_cases hx : x = 'v' ∨ x = 'V'
    · simp only [hx, if_true, Bool.and_eq_true] at h
      rcases List.mem_cons.1 hc with he | he
      · subst he; rcases hx with hx | hx <;> subst hx <;> decide
      · have := List.all_eq_true.1 h.2 c he
        intro h0; subst h0; simp [isDig, Char.isDigit] at this
    · simp only [hx, if_false, Bool.and_eq_true] at h
      rcases List.mem_cons.1 hc with he | he
      · subst he; intro h0; subst h0; simp [isDig, Char.isDigit] at h
      · have := List.all_eq_true.1 h.2 c he
        intro h0; subst h0; simp [isDig, Char.isDigit] at this

theorem pySpace_ne_lt {ws : List Char} (h : ws.all isPySpace = true) :
    ∀ c ∈ ws, c ≠ '<' := by
  intro c hc h0
  subst h0
  have := List.all_eq_true.1 h _ hc
  simp [isPySpace] at this

/-- The characters consumed by a successful scanner step contain `<` only
in the very first position. -/
theorem consumed_no_lt {ws tok : List Char} (hws : ws.all isPySpace = true)
    (hc : canonTok tok = true) : '<' ∉ (tailLit ++ ws) ++ tok := by
  intro hmem
  simp only [List.mem_append] at hmem
  rcases hmem with (h | h) | h
  · revert h; decide
  · exact pySpace_ne_lt hws _ h rfl
  · exact canonTok_ne_lt hc _ h rfl

/-- A summary occurrence is always found by the scanner (claims C1/C2's
round-trip direction). -/
theorem occ_mem : ∀ (n : Nat) (s v : List Char), s.length ≤ n →
    SummaryOcc v s → v ∈ scanAux s := by
  intro n
  induction n with
  | zero =>
    intro s v hle hocc
    obtain ⟨pre, ws, post, heq, _, _, _⟩ := hocc
    have := congrArg List.length heq
    simp [sumLit] at this
    omega
  | succ n ih =>
    intro s v hle hocc
    obtain ⟨pre, ws, post, heq, hws, hv, hp⟩ := hocc
    cases hm : matchSummary s with
    | some pr =>
      obtain ⟨tok, rest⟩ := pr
      rw [scanAux_eq_some hm]
      obtain ⟨ws', heq', hws', hc', hp'⟩ := matchSummary_some hm
      cases pre with
      | nil =>
        simp only [List.nil_append] at heq
        have hm2 : matchSummary s = some (v, post) := by
          rw [heq]
          have := matchSummary_of_occ hws hv hp
          simpa [List.append_assoc] using this
        rw [hm] at hm2
        injection hm2 with h2
        injection h2 with h3 _
        exact h3 ▸ List.mem_cons_self _ _
      | cons p pre' =>
        -- the consumed span cannot cover the occurrence's `<`
        have hsplit : s = ((sumLit ++ ws') ++ tok) ++ rest := heq'
        set consumed := (sumLit ++ ws') ++ tok with hcdef
        have hcons : consumed = '<' :: ((tailLit ++ ws') ++ tok) := by
          simp [hcdef, sumLit, tailLit]
        have hnlt : '<' ∉ (tailLit ++ ws') ++ tok := consumed_no_lt hws' hc'
        have hlen : consumed.length ≤ (p :: pre').length := by
          by_contra hgt
          push_neg at hgt
          have hdrop1 : s.drop (p :: pre').length = sumLit ++ (ws ++ (v ++ post)) := by
            rw [heq]; exact List.drop_left _ _
          have hdrop2 : s.drop (p :: pre').length =
              consumed.drop (p :: pre').length ++ rest := by
            rw [hsplit]
            exact drop_append_le rest (Nat.le_of_lt hgt)
          have hne : consumed.drop (p :: pre').length ≠ [] := by
            intro h0
            have hl := congrArg List.length h0
            rw [List.length_drop] at hl
            simp only [List.length_nil] at hl
            omega
          obtain ⟨c0, cc, hcc⟩ := List.exists_cons_of_ne_nil hne
          have hc0 : c0 = '<' := by
            rw [hdrop1, hcc] at hdrop2
            have : '<' :: (tailLit ++ (ws ++ (v ++ post))) = c0 :: (cc ++ rest) := by
              simpa [sumLit, tailLit] using hdrop2
            injection this with h1 _
            exact h1.symm
          have hmem : c0 ∈ (tailLit ++ ws') ++ tok := by
            have : consumed.drop (p :: pre').length =
                ((tailLit ++ ws') ++ tok).drop pre'.length := by
              rw [hcons]; rfl
            have h1 : c0 ∈ consumed.drop (p :: pre').length := by
              rw [hcc]; exact List.mem_cons_self _ _
            rw [this] at h1
            exact List.drop_subset _ _ h1
          exact hnlt (hc0 ▸ hmem)
        have hrest : SummaryOcc v rest := by
          refine ⟨(p :: pre').drop consumed.length, ws, post, ?_, hws, hv, hp⟩
          have h1 : rest = s.drop consumed.length := by
            rw [hsplit]; exact (List.drop_left _ _).symm
          rw [h1, heq, drop_append_le _ hlen]
        have hlen2 : rest.length ≤ n := by
          have := matchSummary_some_length hm
          omega
        exact List.mem_cons_of_mem _ (ih rest v hlen2 hrest)
    | none =>
      cases s with
      | nil =>
        have := congrArg List.length heq
        simp [sumLit] at this
        omega
      | cons c cs =>
        cases pre with
        | nil =>
          simp only [List.nil_append] at heq
          have hm2 : matchSummary (c :: cs) = some (v, post) := by
            rw [heq]
            have := matchSummary_of_occ hws hv hp
            simpa [List.append_assoc] using this
          rw [hm] at hm2
          exact absurd hm2 (by simp)
        | cons p pre' =>
          rw [scanAux_eq_none hm]
          rw [List.cons_append] at heq
          injection heq with h1 h2
          have hocc2 : SummaryOcc v cs := ⟨pre', ws, post, h2, hws, hv, hp⟩
          have hlen2 : cs.length ≤ n := by
            simp only [List.length_cons] at hle
            omega
          exact ih cs v hlen2 hocc2

/-- Every token the scanner returns is a summary occurrence. -/
theorem mem_occ : ∀ (n : Nat) (s v : List Char), s.length ≤ n →
    v ∈ scanAux s → SummaryOcc v s := by
  intro n
  induction n with
  | zero =>
    intro s v hle hmem
    cases s with
    | nil => rw [scanAux_nil] at hmem; simp at hmem
    | cons c cs => simp at hle
  | succ n ih =>
    intro s v hle hmem
    cases hm : matchSummary s with
    | some pr =>
      obtain ⟨tok, rest⟩ := pr
      rw [scanAux_eq_some hm] at hmem
      obtain ⟨ws', heq', hws', hc', hp'⟩ := matchSummary_some hm
      rcases List.mem_cons.1 hmem with he | he
      · subst he
        exact ⟨[], ws', rest, by rw [heq']; simp [List.append_assoc], hws', hc', hp'⟩
      · have hlen2 : rest.length ≤ n := by
          have := matchSummary_some_length hm
          omega
        obtain ⟨pre, ws, post, heq, hws, hv, hp⟩ := ih rest v hlen2 he
        refine ⟨((sumLit ++ ws') ++ tok) ++ pre, ws, post, ?_, hws, hv, hp⟩
        rw [heq', heq]
        simp [List.append_assoc]
    | none =>
      cases s with
      | nil => rw [scanAux_nil] at hmem; simp at hmem
      | cons c cs =>
        rw [scanAux_eq_none hm] at hmem
        have hlen2 : cs.length ≤ n := by
          simp only [List.length_cons] at hle
          omega
        obtain ⟨pre, ws, post, heq, hws, hv, hp⟩ := ih cs v hlen2 hmem
        exact ⟨c :: pre, ws, post, by rw [List.cons_append, ← heq], hws, hv, hp⟩

/-- Occurrences survive arbitrary extension on the left. -/
theorem occ_append_left {v s : List Char} (a : List Char) (h : SummaryOcc v s) :
    SummaryOcc v (a ++ s) := by
  obtain ⟨pre, ws, post, heq, hws, hv, hp⟩ := h
  exact ⟨a ++ pre, ws, post, by rw [heq, List.append_assoc], hws, hv, hp⟩

/-- Tokens of a suffix are still found after prepending text. -/
theorem scan_mono_left {v b : List Char} (a : List Char) (h : v ∈ scanAux b) :
    v ∈ scanAux (a ++ b) := by
  have hocc := mem_occ b.length b v (Nat.le_refl _) h
  exact occ_mem (a ++ b).length _ v (Nat.le_refl _) (occ_append_left a hocc)

/-! ### Decomposition of a rendered block around its version token. -/

theorem data_append (a b : String) : (a ++ b).data = a.data ++ b.data := rfl

theorem joinNl_cons (a : String) (l : List String) (h : l ≠ []) :
    joinNl (a :: l) = a ++ "\n" ++ joinNl l := by
  cases l with
  | nil => exact absurd rfl h
  | cons b bs => rfl

theorem headLit_eq : ("<details>\n  <summary>\n            ").data =
    headPre ++ (sumLit ++ nl12) := rfl

theorem renderTail_head (p : Patch) :
    headNotDig (renderTailStr p).data = true ∧ (renderTailStr p).data ≠ [] := by
  unfold renderTailStr
  rcases hd : p.date with _ | d
  · rcases ht : p.title with _ | t
    · exact ⟨rfl, List.cons_ne_nil _ _⟩
    · by_cases he : t = ""
      · subst he
        exact ⟨rfl, List.cons_ne_nil _ _⟩
      · simp only [titlePart, datePart, he, if_false]
        exact ⟨rfl, List.cons_ne_nil _ _⟩
  · by_cases he : d = ""
    · subst he
      rcases ht : p.title with _ | t
      · exact ⟨rfl, List.cons_ne_nil _ _⟩
      · by_cases he' : t = ""
        · subst he'
          exact ⟨rfl, List.cons_ne_nil _ _⟩
        · simp only [titlePart, datePart, he', if_false, if_pos rfl]
          exact ⟨rfl, List.cons_ne_nil _ _⟩
    · simp only [datePart, he, if_false]
      exact ⟨rfl, List.cons_ne_nil _ _⟩

theorem renderPatch_decomp (p : Patch) :
    (renderPatch p).data =
      headPre ++ (sumLit ++ (nl12 ++ (p.version.data ++ (renderTailStr p).data))) := by
  unfold renderPatch format_patch_summary renderTailStr
  simp only [List.singleton_append, List.cons_append, List.nil_append,
    List.append_assoc]
  rw [joinNl_cons
    ("<details>\n  <summary>\n            " ++
      (p.version ++ datePart p.date ++ titlePart p.title) ++ "\n  </summary>")
    (urlLines p.url ++ (itemLines p.sections ++ ["</details>\n"])) (by simp)]
  simp only [data_append, List.append_assoc]
  rfl

/-- A rendered block carries a summary occurrence of its version token
(provided the version is canonical). -/
theorem renderPatch_occ {p : Patch} (hv : canonTok p.version.data = true)
    (post : List Char) : SummaryOcc p.version.data ((renderPatch p).data ++ post) := by
  obtain ⟨hhead, hne⟩ := renderTail_head p
  refine ⟨headPre, nl12, (renderTailStr p).data ++ post, ?_, by decide, hv, ?_⟩
  · rw [renderPatch_decomp p]
    simp [List.append_assoc]
  · cases hcs : (renderTailStr p).data with
    | nil => exact absurd hcs hne
    | cons c cs =>
      rw [hcs] at hhead
      simpa [headNotDig] using hhead

/-- Splitting `"\n".join` around one of its members (character level). -/
theorem joinNl_split {x : String} : ∀ {l : List String}, x ∈ l →
    ∃ A B : List Char, (joinNl l).data = A ++ (x.data ++ B) := by
  intro l
  induction l with
  | nil => intro h; simp at h
  | cons a as ih =>
    intro h
    rcases List.mem_cons.1 h with he | he
    · subst he
      cases as with
      | nil => exact ⟨[], [], by simp [joinNl]⟩
      | cons b bs =>
        refine ⟨[], ('\n' :: (joinNl (b :: bs)).data), ?_⟩
        rw [joinNl_cons _ _ (by simp)]
        simp [data_append]
    · cases as with
      | nil => simp at he
      | cons b bs =>
        obtain ⟨A, B, hAB⟩ := ih he
        refine ⟨a.data ++ ('\n' :: A), B, ?_⟩
        rw [joinNl_cons _ _ (by simp), data_append, data_append, hAB]
        simp [List.append_assoc]

end PatchLogs
namespace PatchLogs

/-! ### Sorting lemmas for the merge (descending stable sort). -/

theorem mem_insertDesc {x y : Patch} {l : List Patch} :
    y ∈ insertDesc x l ↔ y = x ∨ y ∈ l := by
  induction l with
  | nil => simp [insertDesc]
  | cons z zs ih =>
    unfold insertDesc
    by_cases h : extract_version_num z.version ≤ extract_version_num x.version
    · simp only [h, if_true, List.mem_cons]
    · simp only [h, if_false, List.mem_cons, ih]
      tauto

theorem insertDesc_pairwise {x : Patch} {l : List Patch}
    (h : l.Pairwise fun a b =>
      extract_version_num b.version ≤ extract_version_num a.version) :
    (insertDesc x l).Pairwise fun a b =>
      extract_version_num b.version ≤ extract_version_num a.version := by
  induction l with
  | nil => simp [insertDesc]
  | cons z zs ih =>
    rw [List.pairwise_cons] at h
    obtain ⟨h1, h2⟩ := h
    unfold insertDesc
    by_cases hc : extract_version_num z.version ≤ extract_version_num x.version
    · rw [if_pos hc, List.pairwise_cons]
      refine ⟨?_, List.pairwise_cons.2 ⟨h1, h2⟩⟩
      intro b hb
      rcases List.mem_cons.1 hb with he | he
      · subst he; exact hc
      · exact Nat.le_trans (h1 b he) hc
    · rw [if_neg hc, List.pairwise_cons]
      refine ⟨?_, ih h2⟩
      intro b hb
      rcases mem_insertDesc.1 hb with he | he
      · subst he; omega
      · exact h1 b he

theorem sortPatchesDesc_pairwise (l : List Patch) :
    (sortPatchesDesc l).Pairwise fun a b =>
      extract_version_num b.version ≤ extract_version_num a.version := by
  induction l with
  | nil => simp [sortPatchesDesc]
  | cons x xs ih => exact insertDesc_pairwise ih

theorem mem_sortPatchesDesc {y : Patch} {l : List Patch} :
    y ∈ sortPatchesDesc l ↔ y ∈ l := by
  induction l with
  | nil => simp [sortPatchesDesc]
  | cons x xs ih =>
    unfold sortPatchesDesc
    rw [mem_insertDesc, ih, List.mem_cons]

theorem filter_insertDesc {k : Nat} {x : Patch} {l : List Patch} :
    (insertDesc x l).filter (fun p => extract_version_num p.version == k) =
      if extract_version_num x.version == k
      then x :: l.filter (fun p => extract_version_num p.version == k)
      else l.filter (fun p => extract_version_num p.version == k) := by
  induction l with
  | nil =>
    unfold insertDesc
    by_cases hx : (extract_version_num x.version == k) = true
    · simp [List.filter, hx]
    · simp [List.filter, hx]
  | cons z zs ih =>
    unfold insertDesc
    by_cases hc : extract_version_num z.version ≤ extract_version_num x.version
    · rw [if_pos hc]
      by_cases hx : (extract_version_num x.version == k) = true <;>
        simp [List.filter_cons, hx]
    · rw [if_neg hc]
      by_cases hx : (extract_version_num x.version == k) = true
      · have hz : (extract_version_num z.version == k) = false := by
          rw [beq_iff_eq] at hx
          rw [beq_eq_false_iff_ne]
          omega
        simp [List.filter_cons, hz, hx, ih]
      · by_cases hz : (extract_version_num z.version == k) = true <;>
          simp [List.filter_cons, hz, hx, ih]

/-- Stability of the merge sort: elements with any one sort key keep
their original relative order. -/
theorem sortPatchesDesc_filter (l : List Patch) (k : Nat) :
    (sortPatchesDesc l).filter (fun p => extract_version_num p.version == k) =
      l.filter (fun p => extract_version_num p.version == k) := by
  induction l with
  | nil => simp [sortPatchesDesc]
  | cons x xs ih =>
    unfold sortPatchesDesc
    rw [filter_insertDesc]
    by_cases hx : (extract_version_num x.version == k) = true <;>
      simp [List.filter_cons, hx, ih]

/-! ### Membership facts connecting merge output and the scanner. -/

theorem mk_data (s : String) : String.mk s.data = s := by
  obtain ⟨d⟩ := s
  rfl

theorem mem_extract_iff {v s : String} :
    v ∈ extract_versions s ↔ v.data ∈ scanAux s.data := by
  unfold extract_versions
  constructor
  · intro h
    obtain ⟨l, hl, he⟩ := List.mem_map.1 h
    rw [← he]
    exact hl
  · intro h
    exact List.mem_map.2 ⟨v.data, h, mk_data v⟩

theorem contains_iff_mem_str {a : String} {l : List String} :
    l.contains a = true ↔ a ∈ l := by
  simp [List.contains]

theorem mem_filterNew {p : Patch} {patches : List Patch} {old : String}
    (hp : p ∈ patches) (hc : ¬(extract_versions old).contains p.version = true) :
    p ∈ filterNew patches old := by
  unfold filterNew
  refine List.mem_filter.2 ⟨hp, ?_⟩
  cases hb : (extract_versions old).contains p.version
  · rfl
  · exact absurd hb hc

/-- Every record of the input (canonical version or not filtered) has its
version token in the merged output. -/
theorem merge_covers {patches : List Patch} {old : String}
    (H : ∀ p ∈ patches, canonTok p.version.data = true) :
    ∀ p ∈ patches, p.version ∈ extract_versions (merge patches old) := by
  intro p hp
  unfold merge
  by_cases hempty : (filterNew patches old).isEmpty
  · rw [if_pos hempty]
    by_cases hc : (extract_versions old).contains p.version = true
    · exact contains_iff_mem_str.1 hc
    · have hmem := mem_filterNew hp hc
      rw [List.isEmpty_iff] at hempty
      rw [hempty] at hmem
      simp at hmem
  · rw [if_neg hempty]
    by_cases hc : (extract_versions old).contains p.version = true
    · -- already present: the old text is a suffix of the output
      have hmemold : p.version.data ∈ scanAux old.data := by
        rw [← mem_extract_iff]
        exact contains_iff_mem_str.1 hc
      rw [mem_extract_iff, data_append]
      exact scan_mono_left _ hmemold
    · -- newly merged: its rendered block carries the token
      have hmem : p ∈ filterNew patches old := mem_filterNew hp hc
      have hsorted : p ∈ sortPatchesDesc (filterNew patches old) :=
        mem_sortPatchesDesc.2 hmem
      have hmap : renderPatch p ∈ (sortPatchesDesc (filterNew patches old)).map renderPatch :=
        List.mem_map_of_mem _ hsorted
      obtain ⟨A, B, hAB⟩ := joinNl_split hmap
      rw [mem_extract_iff]
      rw [data_append, data_append, data_append, hAB]
      have hocc := renderPatch_occ (H p hp) (B ++ ("\n".data ++ ("\n\n".data ++ old.data)))
      have hocc2 := occ_append_left A hocc
      have heq : A ++ ((renderPatch p).data ++ (B ++ ("\n".data ++ ("\n\n".data ++ old.data)))) =
          A ++ ((renderPatch p).data ++ B) ++ "\n".data ++ "\n\n".data ++ old.data := by
        simp [List.append_assoc]
      rw [heq] at hocc2
      exact occ_mem _ _ _ (Nat.le_refl _) hocc2

/-- Unfolding equation of the merge (merge steps 1–5 of the spec). -/
theorem merge_eq (patches : List Patch) (old : String) :
    merge patches old =
      if (filterNew patches old).isEmpty then old
      else joinNl ((sortPatchesDesc (filterNew patches old)).map renderPatch) ++
        "\n" ++ "\n\n" ++ old := rfl

end PatchLogs

namespace PatchLogs

/-! ### Claim C1 — merge idempotence. -/

/-- C1 (counterexample): merging the same record set twice is NOT always a
no-op — a record whose version is the `unknown_<timestamp>` fallback is
never recovered by the `<summary>`-scanning regex, so the second merge
re-adds its block and the aggregate changes. -/
theorem merge_not_idempotent_for_unknown_version :
    merge [unkPatch] (merge [unkPatch] "") ≠ merge [unkPatch] "" := by decide

/-- C1 (amended): merging the same record set into an aggregate twice in a
row yields the same aggregate as merging once, provided every record's
version is an optional `v`/`V` followed only by digits (the canonical
`VersionId` shape) — exactly the tokens the merger's scanner can recover. -/
theorem merge_idempotent_for_canonical_versions {patches : List Patch}
    {old : String} (H : ∀ p ∈ patches, canonTok p.version.data = true) :
    merge patches (merge patches old) = merge patches old := by
  have hcov := @merge_covers patches old H
  have hfil : filterNew patches (merge patches old) = [] := by
    unfold filterNew
    rw [List.filter_eq_nil_iff]
    intro p hp
    have hc := contains_iff_mem_str.2 (hcov p hp)
    simp [hc, hcov p hp]
  rw [merge_eq patches (merge patches old), hfil]
  rfl

/-- Witness for C1's amended theorem at a concrete record set. -/
theorem merge_idempotent_witness :
    (∀ p ∈ [pv205], canonTok p.version.data = true) ∧
      merge [pv205] (merge [pv205] "") = merge [pv205] "" :=
  ⟨by decide, merge_idempotent_for_canonical_versions (by decide)⟩

/-! ### Claim C2 — render/scan round trip. -/

/-- C2 (counterexample): the version token emitted in a rendered block is
NOT always recovered by the merger's scanner — a record with the fallback
version `unknown_0` renders fine, but scanning its block yields nothing. -/
theorem render_scan_no_round_trip_for_unknown :
    "unknown_0" ∉
      extract_versions (format_patch_summary "unknown_0" none none none
        [("Misc", ["x"])]) := by decide

/-- C2 (amended): for every record whose version is an optional `v`/`V`
followed only by digits, the version token emitted in the rendered block's
summary line is recovered by the merger's existing-version scanner. -/
theorem render_scan_round_trip (version : String) (date url title : Option String)
    (sections : List (String × List String))
    (h : canonTok version.data = true) :
    version ∈ extract_versions (format_patch_summary version date url title sections) := by
  rw [mem_extract_iff]
  have hocc := @renderPatch_occ ⟨version, date, url, title, sections⟩ h []
  rw [List.append_nil] at hocc
  exact occ_mem _ _ _ (Nat.le_refl _) hocc

/-- Witness for C2's amended theorem: rendering `v142` and scanning
recovers `v142`. -/
theorem render_scan_round_trip_witness :
    "v142" ∈ extract_versions (format_patch_summary "v142" (some "Jun 1, 2016")
      (some "https://example.com/v142") (some "Some Title") [("Combat", ["X"])]) :=
  render_scan_round_trip "v142" _ _ _ _ (by decide)

/-! ### Claim C3 — dedup on merge. -/

/-- C3: if the aggregate already contains a scannable block for a record's
version, merging that record is a byte-identical no-op, and more generally
no record with that version survives the merge filter. -/
theorem merge_dedup {r : Patch} {old : String}
    (h : r.version ∈ extract_versions old) :
    merge [r] old = old ∧
      ∀ (patches : List Patch) (p : Patch), p ∈ filterNew patches old →
        p.version ≠ r.version := by
  have hc : (extract_versions old).contains r.version = true :=
    contains_iff_mem_str.2 h
  constructor
  · rw [merge_eq]
    have hnil : filterNew [r] old = [] := by
      simp [filterNew, List.filter_cons, hc, h]
    rw [hnil]
    rfl
  · intro patches p hp heq
    have hcond := (List.mem_filter.1 hp).2
    rw [heq] at hcond
    rw [hc] at hcond
    exact absurd hcond (by decide)

/-- Witness for C3 at a concrete aggregate containing `v205`. -/
theorem merge_dedup_witness :
    ("v205" ∈ extract_versions oldDocV205) ∧
      merge [pv205] oldDocV205 = oldDocV205 :=
  ⟨by decide, (@merge_dedup pv205 oldDocV205 (by decide)).1⟩

/-! ### Claim C4 — merge ordering (descending stable sort). -/

/-- C4: the merge renders the filtered records in descending order of the
numeric component of their versions (`extract_version_num`), ties keeping
original relative order (stability as key-filter preservation), and the
concrete set `v100, v205, v99` comes out as `v205, v100, v99`. -/
theorem merge_ordering :
    (∀ l : List Patch, (sortPatchesDesc l).Pairwise fun a b =>
        extract_version_num b.version ≤ extract_version_num a.version)
    ∧ (∀ (l : List Patch) (k : Nat),
        (sortPatchesDesc l).filter (fun p => extract_version_num p.version == k) =
          l.filter (fun p => extract_version_num p.version == k))
    ∧ (∀ (patches : List Patch) (old : String),
        merge patches old =
          if (filterNew patches old).isEmpty then old
          else joinNl ((sortPatchesDesc (filterNew patches old)).map renderPatch) ++
            "\n" ++ "\n\n" ++ old)
    ∧ (sortPatchesDesc [pv100, pv205, pv99]).map Patch.version =
        ["v205", "v100", "v99"] :=
  ⟨sortPatchesDesc_pairwise, sortPatchesDesc_filter, merge_eq, by decide⟩

end PatchLogs

namespace PatchLogs

/-! ### Digit-count lemmas for the version patterns (claim C5). -/

theorem digitsAt_length {l d : List Char} {k : Nat} (h : digitsAt l k = some d) :
    d.length = k := by
  unfold digitsAt at h
  split at h
  · next hcond =>
    injection h with he
    subst he
    simp only [Bool.and_eq_true, decide_eq_true_eq] at hcond
    exact hcond.1.1
  · exact absurd h (by simp)

theorem tryCounts_mem {ks : List Nat} {l d : List Char}
    (h : tryCounts ks l = some d) : d.length ∈ ks := by
  induction ks with
  | nil => simp [tryCounts] at h
  | cons k rest ih =>
    unfold tryCounts at h
    cases hd : digitsAt l k with
    | some d' =>
      rw [hd] at h
      injection h with he
      subst he
      exact (digitsAt_length hd) ▸ List.mem_cons_self _ _
    | none =>
      rw [hd] at h
      exact List.mem_cons_of_mem _ (ih h)

theorem sepBranch_counts {pat : VPat} {c : Char} {rest w ds : List Char}
    (h : sepBranch pat c rest = some (w, ds)) : ds.length ∈ pat.counts := by
  cases rest with
  | nil => simp [sepBranch] at h
  | cons d rest2 =>
    simp only [sepBranch] at h
    split at h
    · obtain ⟨d', hd', he⟩ := Option.map_eq_some'.1 h
      injection he with he1 he2
      subst he2
      exact tryCounts_mem hd'
    · exact absurd h (by simp)

theorem noSepBranch_counts {pat : VPat} {c : Char} {rest w ds : List Char}
    (h : noSepBranch pat c rest = some (w, ds)) : ds.length ∈ pat.counts := by
  unfold noSepBranch at h
  obtain ⟨d', hd', he⟩ := Option.map_eq_some'.1 h
  injection he with he1 he2
  subst he2
  exact tryCounts_mem hd'

theorem matchVAt_counts {pat : VPat} {prev : Option Char} {s w ds : List Char}
    (h : matchVAt pat prev s = some (w, ds)) : ds.length ∈ pat.counts := by
  cases s with
  | nil => simp [matchVAt] at h
  | cons c rest =>
    simp only [matchVAt] at h
    split at h
    · cases hb : sepBranch pat c rest with
      | some r =>
        rw [hb] at h
        simp only [Option.orElse] at h
        injection h with he
        subst he
        exact sepBranch_counts hb
      | none =>
        rw [hb] at h
        simp only [Option.orElse] at h
        exact noSepBranch_counts h
    · exact absurd h (by simp)

theorem searchV_counts {pat : VPat} :
    ∀ {prev : Option Char} {l w ds : List Char},
      searchV pat prev l = some (w, ds) → ds.length ∈ pat.counts := by
  intro prev l
  induction l generalizing prev with
  | nil => intro w ds h; simp [searchV] at h
  | cons c cs ih =>
    intro w ds h
    unfold searchV at h
    cases hm : matchVAt pat prev (c :: cs) with
    | some r =>
      rw [hm] at h
      injection h with he
      subst he
      exact matchVAt_counts hm
    | none =>
      rw [hm] at h
      exact ih h

/-! ### Claim C5 — version-token patterns of the scraper variants. -/

/-- C5 (counterexample): the version pattern is NOT uniform across the
scraper variants — `patch-scraper-wayback.py` requires exactly 3 digits,
so a URL carrying `v99` resolves in the below-v165 variant but falls to
the wall-clock placeholder in the wayback variant. -/
theorem version_pattern_counterexample :
    extract_version emptyDoc "https://maplestory.nexon.net/news/v99/" 7 = "v99" ∧
      version_from "https://maplestory.nexon.net/news/v99/" emptyDoc 7 =
        "unknown_7" := by decide

/-- C5 (amended): version extraction is word-boundary anchored and
case-insensitive; the below-v165 and main-scraper patterns accept 2–3
digits while the wayback pattern accepts exactly 3; in every variant a
URL containing `v2050` yields no match and `/v205/` yields `v205`. -/
theorem version_pattern_per_variant :
    (∀ url : String,
      ((searchV patWayback none url.data).all fun r => r.2.length == 3) = true)
    ∧ (∀ url : String,
      ((searchV patBelow none url.data).all fun r =>
        r.2.length == 2 || r.2.length == 3) = true)
    ∧ (∀ s : String,
      ((searchV patMainTitle none s.data).all fun r =>
        r.2.length == 2 || r.2.length == 3) = true)
    ∧ (∀ s : String,
      ((searchV patMainUrl none s.data).all fun r =>
        r.2.length == 2 || r.2.length == 3) = true)
    ∧ extract_version emptyDoc "https://maplestory.nexon.net/news/v205/" 7 = "v205"
    ∧ extract_version emptyDoc "https://maplestory.nexon.net/news/v2050/" 7 = "unknown_7"
    ∧ version_from "https://maplestory.nexon.net/news/v205/" emptyDoc 7 = "v205"
    ∧ version_from "https://maplestory.nexon.net/news/v2050/" emptyDoc 7 = "unknown_7"
    ∧ epvCore "" "https://maplestory.nexon.net/news/v205/" 7 = "v205"
    ∧ epvCore "" "https://maplestory.nexon.net/news/v2050/" 7 = "unknown_7" := by
  refine ⟨?_, ?_, ?_, ?_, by decide, by decide, by decide, by decide, by decide, by decide⟩
  · intro url
    cases hs : searchV patWayback none url.data with
    | none => rfl
    | some r =>
      obtain ⟨w, ds⟩ := r
      have hm := searchV_counts hs
      simp only [patWayback, List.mem_singleton] at hm
      simp [Option.all, hm]
  · intro url
    cases hs : searchV patBelow none url.data with
    | none => rfl
    | some r =>
      obtain ⟨w, ds⟩ := r
      have hm := searchV_counts hs
      simp only [patBelow, List.mem_cons, List.not_mem_nil, or_false] at hm
      rcases hm with hm | hm <;> simp [Option.all, hm]
  · intro s
    cases hs : searchV patMainTitle none s.data with
    | none => rfl
    | some r =>
      obtain ⟨w, ds⟩ := r
      have hm := searchV_counts hs
      simp only [patMainTitle, List.mem_cons, List.not_mem_nil, or_false] at hm
      rcases hm with hm | hm <;> simp [Option.all, hm]
  · intro s
    cases hs : searchV patMainUrl none s.data with
    | none => rfl
    | some r =>
      obtain ⟨w, ds⟩ := r
      have hm := searchV_counts hs
      simp only [patMainUrl, List.mem_cons, List.not_mem_nil, or_false] at hm
      rcases hm with hm | hm <;> simp [Option.all, hm]

/-! ### Claim C6 — version resolution order. -/

/-- C6 (counterexample): in `patch-scraper.py` a title match preempts a
URL match — the URL carries `v205` but the resolved version is the
title's `v100`. -/
theorem version_resolution_counterexample :
    extract_patch_version soupTitleV100 "https://maplestory.nexon.net/news/v205/" 7 =
      Except.ok "v100" ∧ ("v100" : String) ≠ "v205" :=
  ⟨rfl, by decide⟩

/-- C6 (amended): in the below-v165 and wayback variants a URL match
preempts the title (the document is never consulted); in the main scraper
a title match preempts the URL.  No variant consults headings. -/
theorem version_resolution_order :
    (∀ (s₁ s₂ : Node) (url : String) (now : Nat) (r : List Char × List Char),
      searchV patBelow none url.data = some r →
        extract_version s₁ url now = "v" ++ (⟨r.2⟩ : String) ∧
        extract_version s₁ url now = extract_version s₂ url now)
    ∧ (∀ (s₁ s₂ : Node) (url : String) (now : Nat) (r : List Char × List Char),
      searchV patWayback none url.data = some r →
        version_from url s₁ now = "v" ++ (⟨r.2⟩ : String) ∧
        version_from url s₁ now = version_from url s₂ now)
    ∧ (∀ (ts url₁ url₂ : String) (now : Nat) (r : List Char × List Char),
      searchV patMainTitle none ts.data = some r →
        epvCore ts url₁ now =
          (⟨toLowerL (r.1.filter fun c => !(c == '.') && !(c == '-'))⟩ : String) ∧
        epvCore ts url₁ now = epvCore ts url₂ now) := by
  refine ⟨?_, ?_, ?_⟩
  · intro s₁ s₂ url now r h
    obtain ⟨w, ds⟩ := r
    constructor <;> simp [extract_version, h]
  · intro s₁ s₂ url now r h
    obtain ⟨w, ds⟩ := r
    constructor <;> simp [version_from, h]
  · intro ts url₁ url₂ now r h
    obtain ⟨w, ds⟩ := r
    constructor <;> simp [epvCore, Option.orElse, h]

/-- Witness for C6's amended theorem: `/v205/` in the URL preempts the
`v100` title in both URL-first variants, while the main scraper resolves
the title's `v100`. -/
theorem version_resolution_witness :
    extract_version soupTitleV100 "https://x/v205/" 7 = "v205" ∧
      version_from "https://x/v205/" soupTitleV100 7 = "v205" ∧
      epvCore "MapleStory v100 Patch" "https://x/v205/" 7 = "v100" :=
  ⟨((version_resolution_order.1 soupTitleV100 emptyDoc "https://x/v205/" 7
      (['v', '2', '0', '5'], ['2', '0', '5']) (by decide)).1).trans rfl,
   ((version_resolution_order.2.1 soupTitleV100 emptyDoc "https://x/v205/" 7
      (['v', '2', '0', '5'], ['2', '0', '5']) (by decide)).1).trans rfl,
   ((version_resolution_order.2.2 "MapleStory v100 Patch" "https://x/v205/"
      "https://y/" 7 (['v', '1', '0', '0'], ['1', '0', '0']) (by decide)).1).trans rfl⟩

/-! ### Claim C7 — title cleaning. -/

/-- C7: applying the four cleaning rules in order to the heading text
`"[Updated] v205 – Grand Athenaeum Patch Notes"` yields exactly
`"Grand Athenaeum"`, both through `clean_title` and through the full
`extract_title` on a document carrying that heading. -/
theorem title_cleaning_rules :
    clean_title "[Updated] v205 – Grand Athenaeum Patch Notes" = "Grand Athenaeum" ∧
      extract_title h1TitleDemo = "Grand Athenaeum" := by decide

end PatchLogs
namespace PatchLogs

/-! ### Claim C8 — missing-metadata policy. -/

/-- C8 (counterexample): a missing title heading does NOT always resolve
to the empty string — the wayback variant returns the placeholder word
`"Untitled"`, and a missing date with no snapshot stamp in the URL returns
`"Unknown"`. -/
theorem missing_metadata_counterexample :
    title_from emptyDoc = "Untitled" ∧
      date_from emptyDoc "https://example.com/page" = Except.ok "Unknown" ∧
      ("Untitled" : String) ≠ "" :=
  ⟨rfl, rfl, by decide⟩

/-- C8 (amended): in `patch-scraper-below-v165.py` a missing date element
or title heading resolves to the empty string; in
`patch-scraper-wayback.py` a missing title header resolves to the
placeholder `"Untitled"` and a missing date (with no Wayback timestamp in
the URL) to `"Unknown"`.  None of these is a fatal error for the URL. -/
theorem missing_metadata_policy :
    (∀ soup : Node,
      (desc soup).find? (fun n => isTag "div" n && hasClass n "news-detail__live-date") =
        none →
      extract_date soup = "")
    ∧ (∀ soup : Node, (desc soup).find? (isTag "h1") = none →
      extract_title soup = "")
    ∧ (∀ soup : Node,
      (desc soup).find? (fun n => isTag "div" n && hasId n "m-news-detail-header") =
        none →
      title_from soup = "Untitled")
    ∧ (∀ (soup : Node) (url : String),
      (desc soup).find? (fun n => isTag "div" n && hasId n "m-news-detail-header") =
        none →
      searchWebTs url.data = none →
      date_from soup url = Except.ok "Unknown") := by
  refine ⟨?_, ?_, ?_, ?_⟩
  · intro soup h
    simp [extract_date, h]
  · intro soup h
    have h2 : (desc soup).find?
        (fun n => isTag "h1" n && hasClass n "news-detail__title") = none := by
      rw [List.find?_eq_none] at h ⊢
      intro x hx hb
      rw [Bool.and_eq_true] at hb
      exact h x hx hb.1
    simp [extract_title, h2, h]
  · intro soup h
    simp [title_from, h]
  · intro soup url h hw
    simp [date_from, h, waybackFallback, hw]

/-- Witness for C8's amended theorem on concrete documents. -/
theorem missing_metadata_witness :
    extract_date emptyDoc = "" ∧ extract_title emptyDoc = "" ∧
      title_from soupTitleV100 = "Untitled" ∧
      date_from soupTitleV100 "https://example.com/x" = Except.ok "Unknown" :=
  ⟨missing_metadata_policy.1 emptyDoc rfl,
   missing_metadata_policy.2.1 emptyDoc rfl,
   missing_metadata_policy.2.2.1 soupTitleV100 rfl,
   missing_metadata_policy.2.2.2 soupTitleV100 "https://example.com/x" rfl rfl⟩

/-! ### Claim C9 — section non-emptiness invariant. -/

theorem setKey_nonempty {k : String} {v : List String}
    {acc : List (String × List String)} (hacc : ∀ kv ∈ acc, kv.2 ≠ [])
    (hv : v ≠ []) : ∀ kv ∈ setKey k v acc, kv.2 ≠ [] := by
  induction acc with
  | nil =>
    intro kv hkv
    simp only [setKey, List.mem_singleton] at hkv
    subst hkv
    exact hv
  | cons a as ih =>
    intro kv hkv
    unfold setKey at hkv
    split at hkv
    · rcases List.mem_cons.1 hkv with he | he
      · subst he; exact hv
      · exact hacc kv (List.mem_cons_of_mem _ he)
    · rcases List.mem_cons.1 hkv with he | he
      · subst he; exact hacc a (List.mem_cons_self _ _)
      · exact ih (fun x hx => hacc x (List.mem_cons_of_mem _ hx)) kv he

theorem legacySection_nonempty {loc : Loc} {header : String} {items : List String}
    (h : legacySection loc = some (header, items)) : items ≠ [] := by
  unfold legacySection at h
  cases hst : (desc loc.node).find? (isTag "strong") with
  | none => rw [hst] at h; exact absurd h (by simp)
  | some st =>
    rw [hst] at h
    dsimp only at h
    split at h
    · exact absurd h (by simp)
    · split at h
      · exact absurd h (by simp)
      · next hne =>
        injection h with he
        injection he with he1 he2
        subst he2
        simpa [List.isEmpty_iff] using hne

theorem legacy_go_nonempty : ∀ (ls : List Loc) (acc : List (String × List String)),
    (∀ kv ∈ acc, kv.2 ≠ []) →
    ∀ kv ∈ parse_legacy_sections_go ls acc, kv.2 ≠ [] := by
  intro ls
  induction ls with
  | nil =>
    intro acc hacc kv hkv
    exact hacc kv hkv
  | cons loc ls ih =>
    intro acc hacc kv hkv
    unfold parse_legacy_sections_go at hkv
    cases hs : legacySection loc with
    | none =>
      rw [hs] at hkv
      exact ih acc hacc kv hkv
    | some pr =>
      obtain ⟨header, items⟩ := pr
      rw [hs] at hkv
      exact ih _ (setKey_nonempty hacc (legacySection_nonempty hs)) kv hkv

theorem waybackSection_nonempty {el : Node} {rest : List Node} {sec : String}
    {items : List String} (h : waybackSection el rest = some (sec, items)) :
    items ≠ [] := by
  unfold waybackSection at h
  split at h
  · cases hb : (desc el).find? (isTag "b") with
    | none => rw [hb] at h; exact absurd h (by simp)
    | some b =>
      rw [hb] at h
      dsimp only at h
      cases hu : (desc el).find? (isTag "ul") with
      | some inlineUl =>
        rw [hu] at h
        dsimp only at h
        split at h
        · exact absurd h (by simp)
        · next hne =>
          injection h with he
          injection he with he1 he2
          subst he2
          simpa [List.isEmpty_iff] using hne
      | none =>
        rw [hu] at h
        dsimp only at h
        cases hn : findNextUl rest with
        | some ul =>
          rw [hn] at h
          dsimp only at h
          split at h
          · exact absurd h (by simp)
          · next hne =>
            injection h with he
            injection he with he1 he2
            subst he2
            simpa [List.isEmpty_iff] using hne
        | none => rw [hn] at h; exact absurd h (by simp)
  · exact absurd h (by simp)

theorem waybackWalk_nonempty : ∀ (els : List Node) (acc : List (String × List String)),
    (∀ kv ∈ acc, kv.2 ≠ []) →
    ∀ kv ∈ waybackWalk els acc, kv.2 ≠ [] := by
  intro els
  induction els with
  | nil =>
    intro acc hacc kv hkv
    exact hacc kv hkv
  | cons el rest ih =>
    intro acc hacc kv hkv
    unfold waybackWalk at hkv
    split at hkv
    · exact hacc kv hkv
    · split at hkv
      · exact hacc kv hkv
      · cases hs : waybackSection el rest with
        | none =>
          rw [hs] at hkv
          exact ih acc hacc kv hkv
        | some pr =>
          obtain ⟨sec, items⟩ := pr
          rw [hs] at hkv
          exact ih _ (setKey_nonempty hacc (waybackSection_nonempty hs)) kv hkv

/-- C9 (amended): every section kept by `parse_legacy_sections` and by
`parse_wayback_toc` has a non-empty item list (the stoplist/empty-items
pruning works there), but the heading-fallback parser
`parse_headings_as_toc` produces sections with empty item lists, and the
wayback scrape persists them. -/
theorem section_nonempty_invariant :
    (∀ (soup : Node) (kv : String × List String),
      kv ∈ parse_legacy_sections soup → kv.2 ≠ [])
    ∧ (∀ (soup : Node) (toc : List (String × List String))
        (kv : String × List String),
      parse_wayback_toc soup = Except.ok toc → kv ∈ toc → kv.2 ≠ [])
    ∧ wayback_toc soupHeadings = Except.ok [("Second Section", [])] := by
  refine ⟨?_, ?_, rfl⟩
  · intro soup kv hkv
    exact legacy_go_nonempty _ [] (by simp) kv hkv
  · intro soup toc kv htoc hkv
    unfold parse_wayback_toc at htoc
    cases hf : (docLocs soup).find? (fun loc => isTag "h1" loc.node &&
        (match nodeString loc.node with
         | some s => containsCI s.data "table of contents".data
         | none => false)) with
    | none => rw [hf] at htoc; exact absurd htoc (by simp)
    | some loc =>
      rw [hf] at htoc
      dsimp only at htoc
      split at htoc
      · exact absurd htoc (by simp)
      · injection htoc with he
        subst he
        exact waybackWalk_nonempty _ [] (by simp) kv hkv

/-- C9 (counterexample): a persisted wayback record may carry a section
whose item list is empty — the heading-fallback parser produced it. -/
theorem section_pruning_counterexample :
    wayback_toc soupHeadings = Except.ok [("Second Section", [])] ∧
      ¬(∀ kv ∈ [("Second Section", ([] : List String))], kv.2 ≠ []) := by
  refine ⟨rfl, ?_⟩
  intro h
  exact h ("Second Section", []) (List.mem_singleton_self _) rfl

/-- Witness for C9's amended theorem at a concrete legacy page. -/
theorem section_nonempty_witness :
    parse_legacy_sections soupLegacyDemo = [("Sec", ["Item"])] ∧
      (("Sec", ["Item"]) : String × List String).2 ≠ [] :=
  ⟨by decide,
   section_nonempty_invariant.1 soupLegacyDemo ("Sec", ["Item"]) (by decide)⟩

/-! ### Claim C10 — modern-nav: anchors before the first header. -/

theorem navFold_cons_anchor {e : Node} {es : List Node}
    {acc : List (String × List String)} (he : isTag "strong" e = false) :
    navFold (e :: es) none acc = navFold es none acc := by
  simp only [navFold, he, Bool.false_eq_true, if_false]

theorem navFold_skip_anchors (es rest : List Node) (acc : List (String × List String))
    (hes : ∀ e ∈ es, isTag "strong" e = false) :
    navFold (es ++ rest) none acc = navFold rest none acc := by
  induction es with
  | nil => rfl
  | cons e es' ih =>
    rw [List.cons_append, navFold_cons_anchor (hes e (List.mem_cons_self _ _))]
    exact ih fun x hx => hes x (List.mem_cons_of_mem _ hx)

theorem modernNavGo_empty : ∀ uls : List Node,
    (∀ ul ∈ uls, qualifiesUl ul = true →
      ∀ e ∈ strongAndAnchors ul, isTag "strong" e = false) →
    modernNavGo uls = [] := by
  intro uls
  induction uls with
  | nil => intro _; rfl
  | cons ul rest ih =>
    intro h
    unfold modernNavGo
    by_cases hq : qualifiesUl ul = true
    · rw [if_pos hq]
      have hsec : navFold (strongAndAnchors ul) none [] = [] := by
        have := navFold_skip_anchors (strongAndAnchors ul) [] []
          (h ul (List.mem_cons_self _ _) hq)
        rw [List.append_nil] at this
        exact this
      rw [hsec]
      exact ih fun x hx => h x (List.mem_cons_of_mem _ hx)
    · rw [if_neg hq]
      exact ih fun x hx => h x (List.mem_cons_of_mem _ hx)

/-- C10: in modern-nav extraction, anchors before the first
`strong`-styled header are assigned to no section; a qualifying list whose
`strong`/`a` elements are all anchors yields an empty mapping, and when
every qualifying list is like that the chain falls through to the legacy
parser. -/
theorem modern_nav_anchors_before_header :
    (∀ (es rest : List Node) (acc : List (String × List String)),
      (∀ e ∈ es, isTag "strong" e = false) →
      navFold (es ++ rest) none acc = navFold rest none acc)
    ∧ (∀ soup : Node,
      (∀ ul ∈ findAll soup "ul", qualifiesUl ul = true →
        ∀ e ∈ strongAndAnchors ul, isTag "strong" e = false) →
      extract_modern_nav soup = [] ∧
      extract_nav_section soup = extract_legacy_nav soup) := by
  refine ⟨navFold_skip_anchors, ?_⟩
  intro soup h
  have hmn : extract_modern_nav soup = [] := modernNavGo_empty _ h
  refine ⟨hmn, ?_⟩
  unfold extract_nav_section
  rw [hmn]
  rfl

/-- Witness for C10 at a concrete page whose only list has anchors but no
`strong` header. -/
theorem modern_nav_fallthrough_witness :
    extract_modern_nav soupAnchorsOnly = [] ∧
      extract_nav_section soupAnchorsOnly = extract_legacy_nav soupAnchorsOnly :=
  modern_nav_anchors_before_header.2 soupAnchorsOnly (by decide)

end PatchLogs
